import Mathlib

/-!
Verification development for an OpenType feature-file object model:
a parser, AST and subsetting engine for `feature`/`lookup` blocks,
substitution rules, glyph classes and script/language scope statements.

Text is embedded as `List Char`; regular-expression searches from the
source are embedded as explicit substring searches with the same
lazy/greedy semantics on the modelled domain.
-/

namespace OTF

/-- Program text, embedded as a list of characters. -/
abbrev Str := List Char

/-- Shorthand for string literals as `Str`. -/
def str (s : String) : Str := s.toList

/-- The apostrophe character used as the target marker. -/
def qc : Char := Char.ofNat 39

/-- Left brace character (used by placeholder substitution). -/
def lbC : Char := Char.ofNat 123

/-- Right brace character (used by placeholder substitution). -/
def rbC : Char := Char.ofNat 125

/-- Whitespace test mirroring Python `str.strip` / `\s` on the source texts. -/
def isWs (c : Char) : Bool := c = ' ' || c = '\t' || c = '\n' || c = '\r'

/-- Python `str.strip()`. -/
def strip (s : Str) : Str := ((s.dropWhile isWs).reverse.dropWhile isWs).reverse

/-- Python `str.split(sep)` for a one-character separator (keeps empty chunks). -/
def splitOnChar (sep : Char) : Str → List Str
  | [] => [[]]
  | c :: rest =>
    let r := splitOnChar sep rest
    if c = sep then [] :: r
    else
      match r with
      | [] => [[c]]
      | h :: t => (c :: h) :: t

/-- Python `sep.join(parts)` for a one-character separator. -/
def joinSep (sep : Char) : List Str → Str
  | [] => []
  | [x] => x
  | x :: xs => x ++ sep :: joinSep sep xs

/-- First index at which `needle` occurs as a contiguous substring of `hay`. -/
def findSubAux (needle : Str) : Str → Nat → Option Nat
  | [], i => if needle = [] then some i else none
  | h :: t, i =>
    if needle.isPrefixOf (h :: t) then some i else findSubAux needle t (i + 1)

/-- First index of substring `needle` in `hay`, if any. -/
def findSub (needle hay : Str) : Option Nat := findSubAux needle hay 0

/-- Last index of character `c` in `s`, if any. -/
def lastIdxAux (c : Char) : Str → Nat → Option Nat → Option Nat
  | [], _, acc => acc
  | h :: t, i, acc => lastIdxAux c t (i + 1) (if h = c then some i else acc)

/-- Last index of character `c` in `s`. -/
def lastIdx (c : Char) (s : Str) : Option Nat := lastIdxAux c s 0 none

/-- Python slice `s[a:b]`. -/
def slice (s : Str) (a b : Nat) : Str := (s.take b).drop a

/-- Python slice `s[1:-1]`. -/
def midSlice (s : Str) : Str := (s.drop 1).dropLast

/-- Fuelled worker for `replaceAll`; the fuel always dominates the string
length at the call site, so the `0` case is never reached on a nonempty
string. -/
def replaceAllF (needle repl : Str) : Nat → Str → Str
  | 0, s => s
  | _, [] => []
  | fuel + 1, h :: t =>
    if needle ≠ [] ∧ needle.isPrefixOf (h :: t) then
      repl ++ replaceAllF needle repl fuel ((h :: t).drop needle.length)
    else
      h :: replaceAllF needle repl fuel t

/-- Python `str.replace(needle, repl)`: replace every non-overlapping
occurrence, scanning left to right (needle nonempty at all uses). -/
def replaceAll (needle repl : Str) (s : Str) : Str :=
  replaceAllF needle repl s.length s

/-- Add an element to a Python-set modelled as a duplicate-free list. -/
def setAdd (l : List Str) (x : Str) : List Str := if x ∈ l then l else l ++ [x]

/-- Python `set.update`: union a list of elements into a set-list. -/
def setUnion (l : List Str) (xs : List Str) : List Str := xs.foldl setAdd l

/-- Two set-lists denote the same Python set (mutual containment). -/
def sameSet (a b : List Str) : Bool := a.all (· ∈ b) && b.all (· ∈ a)

/-! ## SequenceElement (src/substitution.py, `SequenceElement.__init__`) -/

/-- The `self.type` tag of a `SequenceElement`. -/
inductive ElemType
  | glyph
  | cls
  | inline_class
  | lookup_ref
deriving DecidableEq, Repr

/-- One element of a substitution's input/output sequence
(src/substitution.py lines 16-39). `lookup_ref` is `some _` exactly for
`lookup_ref`-typed elements (Python sets the attribute only there). -/
structure SequenceElement where
  name : Str
  is_target : Bool
  is_context : Option Bool
  value : Str
  glyph_names : List Str
  type : ElemType
  lookup_ref : Option Str
deriving DecidableEq, Repr

/-- The first regex group of `re.search(r'\[(.+)\]', element)`: content between
the first `[` and the last `]`, requiring at least one character (greedy `.+`). -/
def bracketGroup (s : Str) : Option Str :=
  match lastIdx ']' s with
  | none => none
  | some rb =>
    match findSub [ '[' ] s with
    | none => none
    | some p => if p + 2 ≤ rb then some (slice s (p + 1) rb) else none

/-- `SequenceElement.__init__` (src/substitution.py lines 16-39).
On the empty string Python raises `IndexError`; the model is total and the
claims only use nonempty elements. -/
def mkSequenceElement (element : Str) : SequenceElement :=
  let is_target := element.getLast? = some qc
  let value := if is_target then element.dropLast else element
  let (ty, gn0, lref) : ElemType × List Str × Option Str :=
    if element.head? = some '@' then
      (ElemType.cls, [], none)
    else if element.head? = some '[' ∧ ']' ∈ element then
      (ElemType.inline_class,
        (match bracketGroup element with
         | some g => splitOnChar ' ' g
         | none => []),
        none)
    else if (str "lookup ").isPrefixOf element then
      (ElemType.lookup_ref, [], some (element.drop 7))
    else
      (ElemType.glyph, [value], none)
  { name := element
    is_target := is_target
    is_context := none
    value := value
    glyph_names := gn0.filter (fun gn => ¬ gn.head? = some '@' ∧ gn ≠ [])
    type := ty
    lookup_ref := lref }

/-! ## Substitution (src/substitution.py, `Substitution`) -/

/-- One substitution rule (src/substitution.py lines 45-63). The Python
`raw_code` field is debugging-only and not part of the model. -/
structure Substitution where
  input_sequence : List SequenceElement
  output_sequence : List SequenceElement
  input_glyphs : List Str
  output_glyphs : List Str
  all_glyphs : List Str
  script : Option Str
  language : Option Str
  is_chaining : Bool
  is_contextual : Bool
deriving DecidableEq, Repr

/-- The `Substitution.__init__` field defaults before `parse_code` runs. -/
def Substitution.base (script language : Option Str) : Substitution :=
  { input_sequence := []
    output_sequence := []
    input_glyphs := []
    output_glyphs := []
    all_glyphs := []
    script := script
    language := language
    is_chaining := false
    is_contextual := false }

/-- `re.search(pre ++ '(.+?)' ++ post, s).group(1)`: at the first occurrence of
`pre`, the shortest nonempty group followed by `post`. -/
def searchLazyGroup (pre post s : Str) : Option Str :=
  match findSub pre s with
  | none => none
  | some p =>
    let after := s.drop (p + pre.length)
    match findSub post (after.drop 1) with
    | some q => some (after.take (q + 1))
    | none => none

/-- `re.search(r'sub (.+?) by', code).group(1)`. -/
def searchSubBy (code : Str) : Option Str := searchLazyGroup (str "sub ") (str " by") code

/-- `re.search(r' by (.+?);', code).group(1)`. -/
def searchByClause (code : Str) : Option Str := searchLazyGroup (str " by ") (str ";") code

/-- Whether `re.search('sub .+? lookup .+', code)` matches. -/
def chainingMatch (code : Str) : Bool :=
  match findSub (str "sub ") code with
  | none => false
  | some p =>
    let after := (code.drop (p + 4)).drop 1
    match findSub (str " lookup ") after with
    | some q => decide (q + 8 < after.length)
    | none => false

/-- `re.search(r'sub (.+);', code).group(1)`: greedy, up to the last `;`. -/
def searchSubGreedy (code : Str) : Option Str :=
  match findSub (str "sub ") code with
  | none => none
  | some p =>
    let after := code.drop (p + 4)
    match lastIdx ';' after with
    | some r => if 1 ≤ r then some (after.take r) else none
    | none => none

/-- Fuelled worker for `findInline`. -/
def findInlineF : Nat → Str → List Str
  | 0, _ => []
  | _, [] => []
  | fuel + 1, c :: rest =>
    if c = '[' then
      match (rest.drop 1).findIdx? (· = ']') with
      | some j0 =>
        let j := j0 + 1
        let core := '[' :: rest.take (j + 1)
        let rest2 := rest.drop (j + 1)
        if rest2.head? = some qc then
          (core ++ [qc]) :: findInlineF fuel (rest2.drop 1)
        else
          core :: findInlineF fuel rest2
      | none => findInlineF fuel rest
    else
      findInlineF fuel rest

/-- The matches of `re.findall(r"(\[.+?\]'?)", s)`, scanned left to right,
non-overlapping, with lazy bracket content and an optional trailing quote. -/
def findInline (s : Str) : List Str := findInlineF s.length s

/-- Fuelled worker for `findLookupRefs`. -/
def findLookupRefsF : Nat → Str → List Str
  | 0, _ => []
  | _, [] => []
  | fuel + 1, c :: rest =>
    if (str "lookup ").isPrefixOf (c :: rest) then
      let after := (c :: rest).drop 7
      let tok := after.takeWhile (fun ch => ¬ isWs ch)
      if tok = [] then
        findLookupRefsF fuel rest
      else
        (str "lookup " ++ tok) :: findLookupRefsF fuel (after.drop tok.length)
    else
      findLookupRefsF fuel rest

/-- The matches of `re.findall(r"(lookup [^\s]+)", s)`, scanned left to right,
non-overlapping, taking a maximal nonempty run of non-whitespace after
`lookup `. -/
def findLookupRefs (s : Str) : List Str := findLookupRefsF s.length s

/-- Decimal digits of `n`, as characters (Python `'{}'.format(i)`). -/
def natStr (n : Nat) : Str := Nat.toDigits 10 n

/-- Placeholder dictionary key `inline_class_i`. -/
def icPh (i : Nat) : Str := str "inline_class_" ++ natStr i

/-- Placeholder dictionary key `lookup_ref_i`. -/
def lrPh (i : Nat) : Str := str "lookup_ref_" ++ natStr i

/-- Wrap a placeholder key in braces, as `'{' + key + '}'`. -/
def braced (s : Str) : Str := lbC :: (s ++ [rbC])

/-- The placeholder-substitution loop of `parse_sequence`: for the `i`-th
found atom, replace every occurrence by its braced placeholder and record
the dictionary entry `key ↦ atom`. -/
def applyPh (mk : Nat → Str) : List Str → Str → Nat → Str × List (Str × Str)
  | [], text, _ => (text, [])
  | f :: fs, text, i =>
    let text2 := replaceAll f (braced (mk i)) text
    let (tr, d) := applyPh mk fs text2 (i + 1)
    (tr, (mk i, f) :: d)

/-- Python `dict.get(k, dflt)` over an association list with distinct keys. -/
def dictGet (d : List (Str × Str)) (k : Str) (dflt : Str) : Str :=
  match d.find? (fun p => p.1 = k) with
  | some p => p.2
  | none => dflt

/-- The token list that `parse_sequence` feeds to `SequenceElement`, after
placeholder protection, splitting on single spaces and dictionary
resolution via `element[1:-1]` (src/substitution.py lines 96-123). -/
def seqTokens (text0 : Str) : List Str :=
  let ics := findInline text0
  let (text1, icd) := applyPh icPh ics text0 0
  let lrs := findLookupRefs text1
  let (text2, lrd) := applyPh lrPh lrs text1 0
  (splitOnChar ' ' text2).map (fun e =>
    let e1 := dictGet icd (midSlice e) e
    dictGet lrd (midSlice e1) e1)

/-- `Substitution.parse_sequence` (src/substitution.py lines 96-130):
the resulting element list together with the `seen_target` flag (which the
caller ORs into `is_contextual`). -/
def parseSequence (text0 : Str) : List SequenceElement × Bool :=
  let elems0 := (seqTokens text0).map mkSequenceElement
  let seen := elems0.any (·.is_target)
  let elems :=
    if seen then
      elems0.map (fun o => { o with is_context := some (!o.is_target) })
    else elems0
  (elems, seen)

/-- The tail of `Substitution.parse_code` (src/substitution.py lines 78-94):
parse whichever clause matched (a `None` group raises `AttributeError`,
caught and ignored) and derive the flat glyph lists. -/
def buildFrom (b : Substitution) (inOpt outOpt : Option Str) : Substitution :=
  let (inSeq, seenIn) :=
    match inOpt with
    | some t => parseSequence t
    | none => ([], false)
  let (outSeq, seenOut) :=
    match outOpt with
    | some t => parseSequence t
    | none => ([], false)
  let ig := inSeq.flatMap (·.glyph_names)
  let og := outSeq.flatMap (·.glyph_names)
  { b with
    input_sequence := inSeq
    output_sequence := outSeq
    is_contextual := b.is_contextual || seenIn || seenOut
    input_glyphs := ig
    output_glyphs := og
    all_glyphs := ig ++ og }

/-- `Substitution.parse_code` (src/substitution.py lines 68-94). -/
def Substitution.parse_code (code : Str) (script language : Option Str) : Substitution :=
  let b := Substitution.base script language
  let inOpt := searchSubBy code
  let outOpt := searchByClause code
  if inOpt = none ∨ outOpt = none then
    if chainingMatch code then
      buildFrom { b with is_chaining := true } (searchSubGreedy code) outOpt
    else b
  else
    buildFrom b inOpt outOpt

/-- `Substitution(code, script, language)`: the constructor with code given. -/
def Substitution.mk' (code : Str) (script language : Option Str) : Substitution :=
  Substitution.parse_code code script language

/-- `'\t' * n`. -/
def tabs (n : Nat) : Str := List.replicate n '\t'

/-- `Substitution.sequence_to_str` (src/substitution.py lines 148-151). -/
def seqToStr (l : List SequenceElement) : Str :=
  joinSep ' ' (l.map fun o => if o.is_target then o.value ++ [qc] else o.value)

/-- `Substitution.write` (src/substitution.py lines 132-146). -/
def Substitution.write (s : Substitution) (tab_level : Nat) : Str :=
  if s.is_chaining then
    tabs tab_level ++ str "sub " ++ seqToStr s.input_sequence ++ [';']
  else
    tabs tab_level ++ str "sub " ++ seqToStr s.input_sequence
      ++ str " by " ++ seqToStr s.output_sequence ++ [';']

/-- The `glyphs` argument of `subset`: Python accepts a list or a
space-separated string. -/
inductive GlyphsArg
  | ofList (l : List Str)
  | ofStr (s : Str)
deriving DecidableEq, Repr

/-- Python truthiness of the `glyphs` argument. -/
def GlyphsArg.truthy : GlyphsArg → Bool
  | .ofList l => !l.isEmpty
  | .ofStr s => !s.isEmpty

/-- `if not isinstance(glyphs, list): glyphs = glyphs.split(' ')`. -/
def GlyphsArg.toGlyphList : GlyphsArg → List Str
  | .ofList l => l
  | .ofStr s => splitOnChar ' ' s

/-- `if scripts and self.script not in scripts:` — the condition under which a
script/language filter drops the rule (Python truthiness included). -/
def tagFilterBlocks (filt : Option (List (Option Str))) (v : Option Str) : Bool :=
  match filt with
  | some l => !l.isEmpty && decide (v ∉ l)
  | none => false

/-- `if glyphs:` followed by the normalisation and the failed containment
test `not set(self.all_glyphs) <= set(glyphs)`. -/
def glyphFilterBlocks (filt : Option GlyphsArg) (ag : List Str) : Bool :=
  match filt with
  | some g => g.truthy && !(ag.all (· ∈ g.toGlyphList))
  | none => false

/-- `Substitution.subset` (src/substitution.py lines 153-172). Filters are
`none` when the Python argument is `None`; script/language filter lists may
contain `None` entries (the repository calls it that way). -/
def Substitution.subset (s : Substitution) (scripts languages : Option (List (Option Str)))
    (glyphs : Option GlyphsArg) : Option Substitution :=
  if scripts = none ∧ languages = none ∧ glyphs = none then some s
  else if tagFilterBlocks scripts s.script then none
  else if tagFilterBlocks languages s.language then none
  else if glyphFilterBlocks glyphs s.all_glyphs then none
  else some s

/-! ## LookupFlag and InFeatureClass

Modelled from the spec: `lookup.py` (defining `Lookup`, `LookupFlag`,
`InFeatureClass`) is not part of the sources; these definitions follow the
spec's data model and statement classifier, with a `raw` field so that
serialization can reproduce the line. -/

/-- Python truthiness of an optional string (`if x.lookup_reference:`). -/
def truthyRef : Option Str → Bool
  | some s => !s.isEmpty
  | none => false

/-- Modelled from the spec: a `LookupFlag` control statement — a comment, a
`lookupflag` setting, a `script`/`language` declaration, or a bare
`lookup NAME;` reference. `script`/`language`/`lookup_reference` are read
from declaration lines only (the enclosing scope is assigned afterwards by
the classifier); there is no `name` attribute. -/
structure LookupFlag where
  raw : Str
  script : Option Str
  language : Option Str
  lookup_reference : Option Str
  is_lookupflag : Bool
deriving DecidableEq, Repr

/-- Modelled from the spec: construct a `LookupFlag` from one trimmed line,
reading a `script TAG;` declaration, a `language TAG;` declaration and/or a
bare `lookup NAME;` reference from the line. -/
def mkLookupFlag (line : Str) : LookupFlag :=
  { raw := line
    script :=
      if (str "script ").isPrefixOf line ∧ line.getLast? = some ';' then
        some ((line.drop 7).dropLast)
      else none
    language :=
      if (str "language ").isPrefixOf line ∧ line.getLast? = some ';' then
        some ((line.drop 9).dropLast)
      else none
    lookup_reference :=
      if (str "lookup ").isPrefixOf line ∧ line.getLast? = some ';' then
        some ((line.drop 7).dropLast)
      else none
    is_lookupflag := (str "lookupflag").isPrefixOf line }

/-- Order-preserving duplicate collapse (Python set built by insertion). -/
def dedup (l : List Str) : List Str := l.foldl setAdd []

/-- Modelled from the spec: one glyph-class definition `@Name = [glyph …];`
occurring inside a feature or lookup body; `name` is stored without the `@`
sigil, `members` is an ordered duplicate-collapsed set. -/
structure InFeatureClass where
  raw : Str
  name : Str
  members : List Str
  script : Option Str
  language : Option Str
deriving DecidableEq, Repr

/-- Modelled from the spec: construct an `InFeatureClass` from one trimmed
`@Name = [glyph …];` line; malformed bracket content yields an empty member
list rather than failing. -/
def mkInFeatureClass (line : Str) (script language : Option Str) : InFeatureClass :=
  { raw := line
    name := (line.drop 1).takeWhile (· ≠ ' ')
    members :=
      dedup ((match bracketGroup line with
              | some g => splitOnChar ' ' g
              | none => []).filter (· ≠ []))
    script := script
    language := language }

/-! ## Lookup (modelled from the spec; constructed by src/feature.py) -/

/-- An element of a Lookup's `code_sequence` (the supported grammar nests
lookups only one level deep, so no nested Lookup appears here). -/
inductive LItem
  | lf (x : LookupFlag)
  | cls (x : InFeatureClass)
  | sub (x : Substitution)
deriving DecidableEq, Repr

/-- Modelled from the spec: a named block of statements bounded by
`lookup NAME { … } NAME;`, carrying aggregated scripts/languages/glyphs;
`script`/`language` hold the enclosing scope at the point the block began. -/
structure Lookup where
  name : Str
  script : Option Str
  language : Option Str
  scripts : List Str
  languages : List Str
  all_glyphs : List Str
  code_sequence : List LItem
deriving DecidableEq, Repr

/-- Mutable accumulator for the statement classifier at block scope. -/
structure LkAcc where
  seq : List LItem
  scripts : List Str
  languages : List Str
  all_glyphs : List Str
  cs : Option Str
  cl : Option Str
deriving Repr

/-- The `else` (control statement) branch of the classifier
(src/feature.py lines 95-108), shared by Feature and Lookup scope: a script
declaration updates the current script, adds it to the owner's script set
and resets the current language; a language declaration is honoured only
under an active script; otherwise the current scope is assigned onto the
statement object. Returns the finished object, the updated script/language
sets and the new current scope. -/
def lfScopeStep (line : Str) (scripts0 languages0 : List Str) (cs0 cl0 : Option Str) :
    LookupFlag × List Str × List Str × Option Str × Option Str :=
  let obj := mkLookupFlag line
  let step1 : LookupFlag × List Str × Option Str × Option Str :=
    match obj.script with
    | some sc => (obj, setAdd scripts0 sc, some sc, none)
    | none =>
      match cs0 with
      | some c => ({ obj with script := some c }, scripts0, cs0, cl0)
      | none => (obj, scripts0, cs0, cl0)
  let obj1 := step1.1
  let scripts1 := step1.2.1
  let cs1 := step1.2.2.1
  let cl1 := step1.2.2.2
  match obj1.language, cs1 with
  | some lg, some c =>
    ({ obj1 with script := some c }, scripts1, setAdd languages0 lg, cs1, some lg)
  | _, _ =>
    match cl1 with
    | some c => ({ obj1 with language := some c }, scripts1, languages0, cs1, cl1)
    | none => (obj1, scripts1, languages0, cs1, cl1)

/-- Modelled from the spec: the Lookup-scope statement loop, mirroring the
Feature classifier on {comment, class, substitution, control} lines (nested
`lookup` blocks are outside the supported one-level grammar; such a line is
treated as a control statement). -/
def lookupBodyLoop : List Str → LkAcc → LkAcc
  | [], a => a
  | line :: rest, a =>
    let a2 :=
      if line.isEmpty then a
      else if line.head? = some '#' then
        { a with seq := a.seq ++ [.lf (mkLookupFlag line)] }
      else if line.head? = some '@' then
        let obj := mkInFeatureClass line a.cs a.cl
        { a with
          seq := a.seq ++ [.cls obj]
          all_glyphs := setUnion a.all_glyphs obj.members }
      else if (str "sub").isPrefixOf line then
        let obj := Substitution.mk' line a.cs a.cl
        { a with
          seq := a.seq ++ [.sub obj]
          all_glyphs := setUnion a.all_glyphs obj.all_glyphs }
      else
        let r := lfScopeStep line a.scripts a.languages a.cs a.cl
        { a with
          seq := a.seq ++ [.lf r.1]
          scripts := r.2.1
          languages := r.2.2.1
          cs := r.2.2.2.1
          cl := r.2.2.2.2 }
    lookupBodyLoop rest a2

/-- `re.search(r'lookup (.+?) {', line).group(1)`. -/
def extractLookupName (line : Str) : Option Str :=
  searchLazyGroup (str "lookup ") (str " " ++ [lbC]) line

/-- Whether `re.search('} ?NAME.*?;', l)` matches — a `}`, an optional single
space, the (metacharacter-free) name, then a later `;`
(src/feature.py line 70). -/
def closeMatch (name l : Str) : Bool :=
  l.tails.any fun t =>
    match t with
    | c :: r =>
      c = rbC &&
        ((name.isPrefixOf r && (r.drop name.length).contains ';')
          || (match r with
              | c2 :: r2 => c2 = ' ' && name.isPrefixOf r2 && (r2.drop name.length).contains ';'
              | [] => false))
    | [] => false

/-- Modelled from the spec: parse a `Lookup` from its text lines (open line
through close line, as sliced out by `Feature.parse_code`), seeding the
block's own scope from the enclosing scope. -/
def Lookup.ofLines (lines : List Str) (script language : Option Str) : Lookup :=
  let nm := (extractLookupName (lines.headD [])).getD []
  let body := (lines.drop 1).takeWhile (fun l => !(closeMatch nm l))
  let a := lookupBodyLoop body ⟨[], [], [], [], script, language⟩
  { name := nm
    script := script
    language := language
    scripts := a.scripts
    languages := a.languages
    all_glyphs := a.all_glyphs
    code_sequence := a.seq }

/-! ## Feature (src/feature.py) -/

/-- An element of a Feature's `code_sequence`. -/
inductive FItem
  | lf (x : LookupFlag)
  | cls (x : InFeatureClass)
  | lk (x : Lookup)
  | sub (x : Substitution)
deriving DecidableEq, Repr

/-- The top-level named block (src/feature.py lines 11-24). `raw_code` and
`feature_code` are kept only as parse inputs and are not modelled as fields. -/
structure Feature where
  name : Str
  code_sequence : List FItem
  scripts : List Str
  languages : List Str
  all_glyphs : List Str
deriving DecidableEq, Repr

/-- A structural parse failure: `exception` is the bare `raise Exception` of
src/feature.py line 74 (it carries no information about the unmatched block);
`attributeError` is an uncaught `AttributeError` (a failed `.group(...)` on a
missing regex match, src/feature.py lines 33-40 and 67). -/
inductive PErr
  | exception
  | attributeError
deriving DecidableEq, Repr

/-- The parse-loop accumulator for `Feature.parse_code`. -/
structure FAcc where
  seq : List FItem
  scripts : List Str
  languages : List Str
  all_glyphs : List Str
deriving Repr

/-- `for cso in self.code_sequence: if isinstance(cso, Lookup) and cso.name ==
ref: cso.scripts.add(current_script); cso.languages.add(current_language)`
(src/feature.py lines 110-117): extend every earlier same-named Lookup with
the current scope. -/
def extendLookups (seq : List FItem) (ref : Str) (cs cl : Option Str) : List FItem :=
  seq.map fun it =>
    match it with
    | .lk lk =>
      if lk.name = ref then
        .lk { lk with
              scripts := (match cs with
                          | some s => setAdd lk.scripts s
                          | none => lk.scripts)
              languages := (match cl with
                            | some s => setAdd lk.languages s
                            | none => lk.languages) }
      else .lk lk
    | other => other

/-- Index (within the given line list, starting at the current line) of the
first line matching the close pattern for `name` (src/feature.py lines 68-72). -/
def findCloseIdx (name : Str) : List Str → Option Nat
  | [] => none
  | l :: rest =>
    if closeMatch name l then some 0
    else (findCloseIdx name rest).map (· + 1)

/-- Fuelled statement loop of `Feature.parse_code` (src/feature.py lines
44-121); the fuel dominates the number of remaining lines, so the `0` case is
never reached. -/
def featLoopF : Nat → List Str → Option Str → Option Str → FAcc → Except PErr FAcc
  | 0, _, _, _, st => .ok st
  | _, [], _, _, st => .ok st
  | fuel + 1, line :: rest, cs, cl, st =>
    if line.isEmpty then
      featLoopF fuel rest cs cl st
    else if line.head? = some '#' then
      featLoopF fuel rest cs cl { st with seq := st.seq ++ [.lf (mkLookupFlag line)] }
    else if line.head? = some '@' then
      let obj := mkInFeatureClass line cs cl
      featLoopF fuel rest cs cl
        { st with
          seq := st.seq ++ [.cls obj]
          all_glyphs := setUnion st.all_glyphs obj.members }
    else if (str "lookup").isPrefixOf line ∧ line.getLast? = some lbC then
      match extractLookupName line with
      | none => .error .attributeError
      | some nm =>
        match findCloseIdx nm (line :: rest) with
        | none => .error .exception
        | some k =>
          let obj := Lookup.ofLines ((line :: rest).take (k + 1)) cs cl
          let obj2 :=
            { obj with
              scripts :=
                (if cs ≠ none ∧ obj.scripts = [] then [cs.getD []] else obj.scripts)
              languages :=
                (if cl ≠ none ∧ obj.languages = [] then [cl.getD []] else obj.languages) }
          featLoopF fuel ((line :: rest).drop (k + 1)) cs cl
            { st with
              seq := st.seq ++ [.lk obj2]
              scripts := setUnion st.scripts obj.scripts
              languages := setUnion st.languages obj.languages
              all_glyphs := setUnion st.all_glyphs obj.all_glyphs }
    else if (str "sub").isPrefixOf line then
      let obj := Substitution.mk' line cs cl
      featLoopF fuel rest cs cl
        { st with
          seq := st.seq ++ [.sub obj]
          all_glyphs := setUnion st.all_glyphs obj.all_glyphs }
    else
      let r := lfScopeStep line st.scripts st.languages cs cl
      let obj := r.1
      let st2 := { st with scripts := r.2.1, languages := r.2.2.1 }
      let cs2 := r.2.2.2.1
      let cl2 := r.2.2.2.2
      let st3 :=
        match obj.lookup_reference with
        | some ref => { st2 with seq := extendLookups st2.seq ref cs2 cl2 }
        | none => st2
      featLoopF fuel rest cs2 cl2 { st3 with seq := st3.seq ++ [.lf obj] }

/-- The line preprocessing of `Feature.parse_code` (src/feature.py line 42):
split on newlines, strip, drop empties. -/
def codeLines (body : Str) : List Str :=
  ((splitOnChar '\n' body).map strip).filter (fun l => !l.isEmpty)

/-- `Feature(code, name)` with the name given: parse the body lines. -/
def Feature.ofBody (name : Str) (body : Str) : Except PErr Feature :=
  (featLoopF (codeLines body).length (codeLines body) none none ⟨[], [], [], []⟩).map
    fun st =>
      { name := name
        code_sequence := st.seq
        scripts := st.scripts
        languages := st.languages
        all_glyphs := st.all_glyphs }

/-- All (possibly overlapping) occurrence offsets of `needle` in `s`. -/
def occurrences (needle s : Str) : List Nat :=
  (List.range (s.length + 1)).filter (fun i => needle.isPrefixOf (s.drop i))

/-- Backtracking over the ` {` candidates of `re.search(r'feature (.+?)
{(.+)}', code, DOTALL)`: lazy nonempty group 1 up to a ` {`, greedy nonempty
group 2 up to the last `}`. -/
def fnbAux (after : Str) : List Nat → Option (Str × Str)
  | [] => none
  | q :: qs =>
    if 1 ≤ q then
      let nm := after.take q
      let after2 := after.drop (q + 2)
      match lastIdx rbC after2 with
      | some rb => if 1 ≤ rb then some (nm, after2.take rb) else fnbAux after qs
      | none => fnbAux after qs
    else fnbAux after qs

/-- `re.search(r'feature (.+?) {(.+)}', code, DOTALL)`: the name and body
groups, if the pattern matches (src/feature.py line 35). -/
def featureNameBody (t : Str) : Option (Str × Str) :=
  match findSub (str "feature ") t with
  | none => none
  | some p => fnbAux (t.drop (p + 8)) (occurrences (str " " ++ [lbC]) (t.drop (p + 8)))

/-- `Feature(code)` with no name given: locate the name/body via the feature
regex (failure prints and re-raises the `AttributeError`), then parse. -/
def Feature.ofText (t : Str) : Except PErr Feature :=
  match featureNameBody t with
  | none => .error .attributeError
  | some nb => Feature.ofBody nb.1 nb.2

/-! ## Serialization -/

/-- Modelled from the spec: a control/comment statement re-renders its line
at the given indentation. -/
def LookupFlag.write (x : LookupFlag) (tl : Nat) : Str := tabs tl ++ x.raw

/-- Modelled from the spec: a class definition re-renders its line at the
given indentation. -/
def InFeatureClass.write (x : InFeatureClass) (tl : Nat) : Str := tabs tl ++ x.raw

/-- Render one Lookup-scope statement. -/
def LItem.write : LItem → Nat → Str
  | .lf x, tl => x.write tl
  | .cls x, tl => x.write tl
  | .sub x, tl => x.write tl

/-- Modelled from the spec: a Lookup renders its children wrapped in
`lookup NAME {` … `} NAME;` with one tab per nesting level. -/
def Lookup.write (lk : Lookup) (tl : Nat) : Str :=
  joinSep '\n'
    ([tabs tl ++ str "lookup " ++ lk.name ++ [' ', lbC]]
      ++ lk.code_sequence.map (LItem.write · (tl + 1))
      ++ [tabs tl ++ [rbC, ' '] ++ lk.name ++ [';']])

/-- Render one Feature-scope statement. -/
def FItem.write : FItem → Nat → Str
  | .lf x, tl => x.write tl
  | .cls x, tl => x.write tl
  | .lk x, tl => x.write tl
  | .sub x, tl => x.write tl

/-- `Feature.write` (src/feature.py lines 123-136) without
`omit_feature_declaration`. -/
def Feature.write (f : Feature) (tab_level : Nat) : Str :=
  tabs tab_level ++ str "feature " ++ f.name ++ [' ', lbC] ++ ['\n']
    ++ joinSep '\n' (f.code_sequence.map (FItem.write · (tab_level + 1)))
    ++ ['\n'] ++ tabs tab_level ++ [rbC, ' '] ++ f.name ++ [';']

/-- `Feature.write(omit_feature_declaration=True)`: bare inner statements,
children rendered at the top indentation level. -/
def Feature.writeBare (f : Feature) : Str :=
  joinSep '\n' (f.code_sequence.map (FItem.write · 0))

/-! ## Subsetting at block and feature scope -/

/-- Modelled from the spec: LookupFlag and InFeatureClass always survive
`subset` unfiltered; a Substitution child applies its own filter. -/
def LItem.subset (it : LItem) (scripts languages : Option (List (Option Str)))
    (glyphs : Option GlyphsArg) : Option LItem :=
  match it with
  | .lf x => some (.lf x)
  | .cls x => some (.cls x)
  | .sub x => (x.subset scripts languages glyphs).map .sub

/-- Whether a Lookup-scope item keeps its block alive after filtering: a
LookupFlag carrying a (truthy) lookup reference or a Substitution. -/
def lkQualifies : LItem → Bool
  | .lf x => truthyRef x.lookup_reference
  | .cls _ => false
  | .sub _ => true

/-- Modelled from the spec: `Lookup.subset` — identity copy when no filter is
given; otherwise keep the surviving children and discard the whole block if
no lookup-reference-carrying LookupFlag and no Substitution remains. -/
def Lookup.subset (lk : Lookup) (scripts languages : Option (List (Option Str)))
    (glyphs : Option GlyphsArg) : Option Lookup :=
  if scripts = none ∧ languages = none ∧ glyphs = none then some lk
  else
    let newseq := lk.code_sequence.filterMap (LItem.subset · scripts languages glyphs)
    if newseq.any lkQualifies then some { lk with code_sequence := newseq } else none

/-- One Feature-scope child's subset decision (src/feature.py lines 144-147;
child behaviour for the classes from `lookup.py` modelled from the spec). -/
def FItem.subset (it : FItem) (scripts languages : Option (List (Option Str)))
    (glyphs : Option GlyphsArg) : Option FItem :=
  match it with
  | .lf x => some (.lf x)
  | .cls x => some (.cls x)
  | .lk x => (x.subset scripts languages glyphs).map .lk
  | .sub x => (x.subset scripts languages glyphs).map .sub

/-- `Feature.check_lookup_exists` (src/feature.py lines 171-183): any item of
the sequence whose `name` attribute equals the target (Lookups and class
definitions have a `name`; LookupFlag and Substitution raise
`AttributeError` and are skipped). -/
def checkLookupExists (items : List FItem) (nm : Str) : Bool :=
  items.any fun it =>
    match it with
    | .lk lk => lk.name = nm
    | .cls c => c.name = nm
    | _ => false

/-- The last Lookup of the original sequence bearing the given name (the
repair loop overwrites with each match in turn, so the last one wins). -/
def lastLookupNamed (items : List FItem) (nm : Str) : Option Lookup :=
  items.foldl
    (fun acc it =>
      match it with
      | .lk lk => if lk.name = nm then some lk else acc
      | _ => acc)
    none

/-- Fuelled reference-repair loop (src/feature.py lines 149-157): walk the
filtered sequence by index; at a LookupFlag with a truthy `lookup_reference`
whose name no item of the *current* sequence carries, substitute a copy of
the (last) original Lookup of that name in place. -/
def repairAuxF (orig : List FItem) : Nat → Nat → List FItem → List FItem
  | 0, _, cur => cur
  | fuel + 1, i, cur =>
    match cur[i]? with
    | none => cur
    | some it =>
      let cur2 :=
        match it with
        | .lf x =>
          let ref := x.lookup_reference.getD []
          if truthyRef x.lookup_reference ∧ ¬ checkLookupExists cur ref then
            match lastLookupNamed orig ref with
            | some lk => cur.set i (.lk lk)
            | none => cur
          else cur
        | _ => cur
      repairAuxF orig fuel (i + 1) cur2

/-- The reference-repair pass over a filtered sequence. -/
def repair (orig cur : List FItem) : List FItem := repairAuxF orig cur.length 0 cur

/-- Whether a Feature-scope item makes the feature non-redundant
(src/feature.py lines 159-169). -/
def featQualifies : FItem → Bool
  | .lf x => truthyRef x.lookup_reference
  | .cls _ => false
  | .lk _ => true
  | .sub _ => true

/-- `Feature.subset` (src/feature.py lines 138-169): identity copy when all
filters are unset; otherwise filter children, repair orphaned lookup
references, and return the new feature iff some lookup reference, Lookup or
Substitution survived. -/
def Feature.subset (f : Feature) (scripts languages : Option (List (Option Str)))
    (glyphs : Option GlyphsArg) : Option Feature :=
  if scripts = none ∧ languages = none ∧ glyphs = none then some f
  else
    let seq1 := f.code_sequence.filterMap (FItem.subset · scripts languages glyphs)
    let seq2 := repair f.code_sequence seq1
    if seq2.any featQualifies then some { f with code_sequence := seq2 } else none

/-! ## Scope-statement computation lemmas -/

/-- The line `script TAG;`. -/
def scriptLine (tag : Str) : Str := str "script " ++ tag ++ [';']

/-- The line `language TAG;`. -/
def languageLine (tag : Str) : Str := str "language " ++ tag ++ [';']

/-- The line `lookup NAME;` (a bare lookup reference). -/
def lookupRefLine (r : Str) : Str := str "lookup " ++ r ++ [';']

/-- `mkLookupFlag` on a `script TAG;` line reads exactly the script tag. -/
theorem mkLookupFlag_script (tag : Str) :
    mkLookupFlag (scriptLine tag)
      = { raw := scriptLine tag, script := some tag, language := none,
          lookup_reference := none, is_lookupflag := false } := by
  have h1 : (str "script ").isPrefixOf (scriptLine tag) = true := by
    simp [scriptLine, str, List.isPrefixOf]
  have h2 : (str "language ").isPrefixOf (scriptLine tag) = false := rfl
  have h3 : (str "lookup ").isPrefixOf (scriptLine tag) = false := rfl
  have h4 : (str "lookupflag").isPrefixOf (scriptLine tag) = false := rfl
  have h5 : (scriptLine tag).getLast? = some ';' := by
    unfold scriptLine
    simp
  have h6 : (scriptLine tag).drop 7 = tag ++ [';'] := rfl
  unfold mkLookupFlag
  rw [if_pos ⟨h1, h5⟩, if_neg (by simp [h2]), if_neg (by simp [h3])]
  simp [h4, h6]

/-- `mkLookupFlag` on a `language TAG;` line reads exactly the language tag. -/
theorem mkLookupFlag_language (tag : Str) :
    mkLookupFlag (languageLine tag)
      = { raw := languageLine tag, script := none, language := some tag,
          lookup_reference := none, is_lookupflag := false } := by
  have h1 : (str "script ").isPrefixOf (languageLine tag) = false := rfl
  have h2 : (str "language ").isPrefixOf (languageLine tag) = true := by
    simp [languageLine, str, List.isPrefixOf]
  have h3 : (str "lookup ").isPrefixOf (languageLine tag) = false := rfl
  have h4 : (str "lookupflag").isPrefixOf (languageLine tag) = false := rfl
  have h5 : (languageLine tag).getLast? = some ';' := by
    unfold languageLine
    simp
  have h6 : (languageLine tag).drop 9 = tag ++ [';'] := rfl
  unfold mkLookupFlag
  rw [if_neg (by simp [h1]), if_pos ⟨h2, h5⟩, if_neg (by simp [h3])]
  simp [h4, h6]

/-- `mkLookupFlag` on a bare `lookup NAME;` line reads exactly the reference. -/
theorem mkLookupFlag_lookupRef (r : Str) :
    mkLookupFlag (lookupRefLine r)
      = { raw := lookupRefLine r, script := none, language := none,
          lookup_reference := some r, is_lookupflag := false } := by
  have h1 : (str "script ").isPrefixOf (lookupRefLine r) = false := rfl
  have h2 : (str "language ").isPrefixOf (lookupRefLine r) = false := rfl
  have h3 : (str "lookup ").isPrefixOf (lookupRefLine r) = true := by
    simp [lookupRefLine, str, List.isPrefixOf]
  have h4 : (str "lookupflag").isPrefixOf (lookupRefLine r) = false := rfl
  have h5 : (lookupRefLine r).getLast? = some ';' := by
    unfold lookupRefLine
    simp
  have h6 : (lookupRefLine r).drop 7 = r ++ [';'] := rfl
  unfold mkLookupFlag
  rw [if_neg (by simp [h1]), if_neg (by simp [h2]), if_pos ⟨h3, h5⟩]
  simp [h4, h6]

/-- The classifier on a `script TAG;` line: the tag is added to the owner's
script set, becomes the current script, and the current language is reset. -/
theorem lfScopeStep_script (tag : Str) (scripts langs : List Str) (cs cl : Option Str) :
    lfScopeStep (scriptLine tag) scripts langs cs cl
      = (mkLookupFlag (scriptLine tag), setAdd scripts tag, langs, some tag, none) := by
  unfold lfScopeStep
  rw [mkLookupFlag_script]

/-- The classifier on a `language TAG;` line under an active script: the tag
is added to the owner's language set and becomes the current language. -/
theorem lfScopeStep_language_active (tag : Str) (scripts langs : List Str) (c : Str)
    (cl : Option Str) :
    lfScopeStep (languageLine tag) scripts langs (some c) cl
      = ({ mkLookupFlag (languageLine tag) with script := some c },
          scripts, setAdd langs tag, some c, some tag) := by
  unfold lfScopeStep
  rw [mkLookupFlag_language]

/-- The classifier on a `language TAG;` line with no active script: the
statement is silently ignored — no set changes, no scope changes. -/
theorem lfScopeStep_language_inactive (tag : Str) (scripts langs : List Str) :
    lfScopeStep (languageLine tag) scripts langs none none
      = (mkLookupFlag (languageLine tag), scripts, langs, none, none) := by
  unfold lfScopeStep
  rw [mkLookupFlag_language]

/-- The classifier on a bare `lookup NAME;` line: the current scope is copied
onto the statement object; sets and scope are unchanged. -/
theorem lfScopeStep_lookupRef (r : Str) (scripts langs : List Str) (cs cl : Option Str) :
    lfScopeStep (lookupRefLine r) scripts langs cs cl
      = ({ mkLookupFlag (lookupRefLine r) with script := cs, language := cl },
          scripts, langs, cs, cl) := by
  unfold lfScopeStep
  rw [mkLookupFlag_lookupRef]
  rcases cs with _ | c <;> rcases cl with _ | c2 <;> rfl

/-- Default feature value used to read `Except` results in concrete checks. -/
def getFeat (e : Except PErr Feature) : Feature :=
  match e with
  | .ok f => f
  | .error _ =>
    { name := [], code_sequence := [], scripts := [], languages := [], all_glyphs := [] }

/-- The body of the C7 scope-propagation check:
`language DEU; script latn; language FRA; sub a by b;`. -/
def c7Body : Str :=
  str "language DEU;\nscript latn;\nlanguage FRA;\nsub a by b;\n"

/-- C7: a `script TAG;` declaration sets the current script and resets the
current language; a `language TAG;` declaration updates the current language
only under an active script; a `language` statement before any `script`
statement is silently ignored. Concretely, in
`language DEU; script latn; language FRA; sub a by b;` the leading `DEU` is
dropped while the rule is scoped `latn`/`FRA`. -/
theorem C7_scope_propagation :
    (∀ tag scripts langs cs cl, lfScopeStep (scriptLine tag) scripts langs cs cl
      = (mkLookupFlag (scriptLine tag), setAdd scripts tag, langs, some tag, none))
    ∧ (∀ tag scripts langs c cl, lfScopeStep (languageLine tag) scripts langs (some c) cl
      = ({ mkLookupFlag (languageLine tag) with script := some c },
          scripts, setAdd langs tag, some c, some tag))
    ∧ (∀ tag scripts langs, lfScopeStep (languageLine tag) scripts langs none none
      = (mkLookupFlag (languageLine tag), scripts, langs, none, none))
    ∧ ((getFeat (Feature.ofBody (str "t") c7Body)).scripts = [str "latn"]
        ∧ (getFeat (Feature.ofBody (str "t") c7Body)).languages = [str "FRA"]
        ∧ (getFeat (Feature.ofBody (str "t") c7Body)).code_sequence.any
            (fun it => match it with
              | FItem.sub x => x.script == some (str "latn") && x.language == some (str "FRA")
              | _ => false) = true) :=
  ⟨lfScopeStep_script, lfScopeStep_language_active, lfScopeStep_language_inactive,
    by decide, by decide, by decide⟩

/-- The C4 scenario body: `lookup ccmap1 { sub danda-deva danda-deva by
dbldanda-deva; } ccmap1;` then `script dev2; lookup ccmap1;` then
`language MAR; lookup ccmap1;`. -/
def c4Body : Str :=
  str "lookup ccmap1 \x7b\nsub danda-deva danda-deva by dbldanda-deva;\n\x7d ccmap1;\nscript dev2;\nlookup ccmap1;\nlanguage MAR;\nlookup ccmap1;\n"

/-- C4: a bare `lookup NAME;` statement extends every earlier same-named
Lookup of the owner's sequence with the current script (if set) and language
(if set): (i) `extendLookups` realises that extension for each member,
(ii) the parse loop on a `lookup NAME;` line performs exactly that extension
before appending the reference statement, and (iii) the concrete ccmap1
scenario ends with `ccmap1.scripts == {dev2}` and
`ccmap1.languages == {MAR}`. -/
theorem C4_reference_extends_scope :
    (∀ (seq : List FItem) (r : Str) (cs cl : Option Str) (lk : Lookup),
      FItem.lk lk ∈ seq → lk.name = r →
        FItem.lk { lk with
          scripts := (match cs with
                      | some s => setAdd lk.scripts s
                      | none => lk.scripts)
          languages := (match cl with
                        | some s => setAdd lk.languages s
                        | none => lk.languages) } ∈ extendLookups seq r cs cl)
    ∧ (∀ (fuel : Nat) (rest : List Str) (cs cl : Option Str) (st : FAcc) (r : Str),
        featLoopF (fuel + 1) (lookupRefLine r :: rest) cs cl st
          = featLoopF fuel rest cs cl
              { st with
                seq := extendLookups st.seq r cs cl
                  ++ [FItem.lf { mkLookupFlag (lookupRefLine r) with
                                  script := cs, language := cl }] })
    ∧ ((getFeat (Feature.ofBody (str "ccmp") c4Body)).code_sequence.any
        (fun it => match it with
          | FItem.lk lk => lk.name == str "ccmap1"
              && lk.scripts == [str "dev2"] && lk.languages == [str "MAR"]
          | _ => false) = true) := by
  refine ⟨?_, ?_, by decide⟩
  · intro seq r cs cl lk hmem hname
    unfold extendLookups
    refine List.mem_map.mpr ⟨FItem.lk lk, hmem, ?_⟩
    simp [hname]
  · intro fuel rest cs cl st r
    have hline : lookupRefLine r = 'l' :: (str "ookup " ++ r ++ [';']) := rfl
    have hne : (lookupRefLine r).isEmpty = false := by rw [hline]; rfl
    have hh : (lookupRefLine r).head? = some 'l' := by rw [hline]; rfl
    have hlast : (lookupRefLine r).getLast? = some ';' := by
      unfold lookupRefLine
      simp
    have hsub : (str "sub").isPrefixOf (lookupRefLine r) = false := rfl
    conv =>
      lhs
      rw [featLoopF]
    rw [if_neg (by simp [hne]), if_neg (by simp [hh]), if_neg (by simp [hh]),
      if_neg (fun hc => by rw [hlast] at hc; exact absurd hc.2 (by decide)),
      if_neg (by simp [hsub])]
    rw [lfScopeStep_lookupRef, mkLookupFlag_lookupRef]

/-- C4 witness: the extension property applied to a concrete one-Lookup
sequence under scope `dev2` (no language). -/
theorem C4_reference_extends_scope_witness :
    FItem.lk { name := str "Foo", script := none, language := none,
               scripts := setAdd [] (str "dev2"), languages := [],
               all_glyphs := [], code_sequence := [] }
      ∈ extendLookups
          [FItem.lk { name := str "Foo", script := none, language := none,
                      scripts := [], languages := [],
                      all_glyphs := [], code_sequence := [] }]
          (str "Foo") (some (str "dev2")) none := by
  exact C4_reference_extends_scope.1 _ (str "Foo") (some (str "dev2")) none _
    (List.mem_singleton.mpr rfl) rfl

/-- The repair loop never changes the sequence length. -/
theorem repairAuxF_length (orig : List FItem) :
    ∀ (fuel i : Nat) (cur : List FItem), (repairAuxF orig fuel i cur).length = cur.length := by
  intro fuel
  induction fuel with
  | zero => intro i cur; rfl
  | succ fuel ih =>
    intro i cur
    unfold repairAuxF
    rcases hget : cur[i]? with _ | it
    · rfl
    · rcases it with x | x | x | x <;> dsimp only
      · by_cases hc : truthyRef x.lookup_reference = true
          ∧ ¬ checkLookupExists cur (x.lookup_reference.getD []) = true
        · rw [if_pos hc]
          rcases lastLookupNamed orig (x.lookup_reference.getD []) with _ | lk
          · exact ih (i + 1) cur
          · rw [ih (i + 1) (cur.set i (FItem.lk lk))]
            exact List.length_set cur i _
        · rw [if_neg hc]
          exact ih (i + 1) cur
      · exact ih (i + 1) cur
      · exact ih (i + 1) cur
      · exact ih (i + 1) cur

/-- Replacing a non-qualifying item by a qualifying one preserves
`any featQualifies` when some item already qualified. -/
theorem any_featQualifies_set (cur : List FItem) (i : Nat) (v : FItem)
    (hv : featQualifies v = true) (hi : i < cur.length)
    (hq : featQualifies (cur.get ⟨i, hi⟩) = true) :
    (cur.set i v).any featQualifies = cur.any featQualifies := by
  have h1 : cur.any featQualifies = true :=
    List.any_eq_true.mpr ⟨cur.get ⟨i, hi⟩, List.get_mem cur i hi, hq⟩
  have hlen : i < (cur.set i v).length := by
    rw [List.length_set]; exact hi
  have h2 : (cur.set i v).any featQualifies = true := by
    refine List.any_eq_true.mpr ⟨v, ?_, hv⟩
    exact List.mem_iff_getElem?.mpr ⟨i, List.getElem?_set_eq_of_lt v hi⟩
  rw [h1, h2]

/-- The repair pass preserves whether any item makes the feature
non-redundant: a replacement always swaps a reference-carrying LookupFlag
(qualifying) for a Lookup (qualifying). -/
theorem repairAuxF_any_qual (orig : List FItem) :
    ∀ (fuel i : Nat) (cur : List FItem),
      (repairAuxF orig fuel i cur).any featQualifies = cur.any featQualifies := by
  intro fuel
  induction fuel with
  | zero => intro i cur; rfl
  | succ fuel ih =>
    intro i cur
    unfold repairAuxF
    rcases hget : cur[i]? with _ | it
    · rfl
    · rcases it with x | x | x | x <;> dsimp only
      · by_cases hc : truthyRef x.lookup_reference = true
          ∧ ¬ checkLookupExists cur (x.lookup_reference.getD []) = true
        · rw [if_pos hc]
          rcases lastLookupNamed orig (x.lookup_reference.getD []) with _ | lk
          · exact ih (i + 1) cur
          · rw [ih (i + 1) (cur.set i (FItem.lk lk))]
            rcases List.getElem?_eq_some.mp hget with ⟨hi, helem⟩
            exact any_featQualifies_set cur i (FItem.lk lk) rfl hi
              (by
                show featQualifies cur[i] = true
                rw [helem]
                exact hc.1)
        · rw [if_neg hc]
          exact ih (i + 1) cur
      · exact ih (i + 1) cur
      · exact ih (i + 1) cur
      · exact ih (i + 1) cur

/-- The C5 elision scenario: a comment, a class definition, and one rule that
the script filter will drop. -/
def c5Body : Str := str "# note\n@C = [a b];\nsub a by b;\n"

/-- C5: with at least one filter given, `Feature.subset` returns nothing iff
no element of the filtered sequence is a LookupFlag carrying a (truthy)
lookup reference, a Lookup, or a Substitution; concretely, the feature whose
filtered body keeps only a comment and a class definition is dropped
entirely. -/
theorem C5_redundant_elision (f : Feature) (scripts languages : Option (List (Option Str)))
    (glyphs : Option GlyphsArg)
    (h : ¬ (scripts = none ∧ languages = none ∧ glyphs = none)) :
    (Feature.subset f scripts languages glyphs = none ↔
      ∀ it ∈ f.code_sequence.filterMap (FItem.subset · scripts languages glyphs),
        featQualifies it = false)
    ∧ Feature.subset (getFeat (Feature.ofBody (str "t") c5Body))
        (some [some (str "latn")]) none none = none := by
  constructor
  · simp only [Feature.subset]
    rw [if_neg h]
    rw [show repair f.code_sequence
          (f.code_sequence.filterMap (FItem.subset · scripts languages glyphs))
        = repairAuxF f.code_sequence
            (f.code_sequence.filterMap (FItem.subset · scripts languages glyphs)).length 0
            (f.code_sequence.filterMap (FItem.subset · scripts languages glyphs)) from rfl]
    rcases hb : (f.code_sequence.filterMap
        (FItem.subset · scripts languages glyphs)).any featQualifies with _ | _
    · rw [if_neg (by rw [repairAuxF_any_qual, hb]; simp)]
      simp only [true_iff]
      exact fun it hit => by
        rcases hq : featQualifies it with _ | _
        · rfl
        · exact absurd hb (by simp [List.any_eq_true.mpr ⟨it, hit, hq⟩])
    · rw [if_pos (by rw [repairAuxF_any_qual, hb])]
      constructor
      · intro hcontra
        exact absurd hcontra (by simp)
      · intro hall
        rcases List.any_eq_true.mp hb with ⟨it, hit, hq⟩
        exact absurd hq (by simp [hall it hit])
  · decide

/-- C5 witness: the theorem applied at the concrete elision scenario, with
the at-least-one-filter hypothesis discharged there. -/
theorem C5_redundant_elision_witness :
    Feature.subset (getFeat (Feature.ofBody (str "t") c5Body))
      (some [some (str "latn")]) none none = none :=
  (C5_redundant_elision (getFeat (Feature.ofBody (str "t") c5Body))
    (some [some (str "latn")]) none none (by simp)).2

/-- Decidable equality for parse results, used by concrete checks. -/
instance : DecidableEq (Except PErr Feature) := fun a b =>
  match a, b with
  | .ok x, .ok y => if h : x = y then isTrue (by rw [h]) else isFalse (by simp [h])
  | .error x, .error y => if h : x = y then isTrue (by rw [h]) else isFalse (by simp [h])
  | .ok _, .error _ => isFalse (by simp)
  | .error _, .ok _ => isFalse (by simp)

/-- A feature text whose `lookup alpha {` block never closes. -/
def c6TextA : Str := str "feature t \x7b\nlookup alpha \x7b\nsub x by y;\n\x7d t;"

/-- A feature text whose `lookup beta {` block never closes. -/
def c6TextB : Str := str "feature t \x7b\nlookup beta \x7b\nsub x by y;\n\x7d t;"

/-- C6 (counterexample): an unclosed `lookup` block makes the parse fail, but
with the *bare generic* exception of src/feature.py line 74 (`raise
Exception`): two documents whose unmatched blocks have different names
(`alpha` vs `beta`) produce identical error values, so the error is not a
distinguishable type naming the unmatched block. -/
theorem C6_counterexample :
    Feature.ofText c6TextA = Except.error PErr.exception
    ∧ Feature.ofText c6TextB = Except.error PErr.exception
    ∧ Feature.ofText c6TextA = Feature.ofText c6TextB := by
  refine ⟨by decide, by decide, by decide⟩

/-- C6 (amended): whenever a `lookup NAME {` opening line has no subsequent
line matching the close pattern before input end, parsing fails with the
generic structural exception — there is no partial-AST recovery, but the
error does not name the unmatched block. -/
theorem C6_unmatched_open_raises (fuel : Nat) (line : Str) (rest : List Str)
    (cs cl : Option Str) (st : FAcc) (nm : Str)
    (hopen : (str "lookup").isPrefixOf line = true ∧ line.getLast? = some lbC)
    (hname : extractLookupName line = some nm)
    (hnoclose : findCloseIdx nm (line :: rest) = none) :
    featLoopF (fuel + 1) (line :: rest) cs cl st = Except.error PErr.exception := by
  have hpre : str "lookup" <+: line := List.isPrefixOf_iff_prefix.mp hopen.1
  rcases hpre with ⟨t, ht⟩
  have hhead : line.head? = some 'l' := by rw [← ht]; rfl
  have hne : line.isEmpty = false := by rw [← ht]; rfl
  rw [featLoopF]
  rw [if_neg (by simp [hne]), if_neg (by simp [hhead]), if_neg (by simp [hhead]),
    if_pos hopen, hname]
  dsimp only
  rw [hnoclose]

/-- C6 witness: the amended theorem applied at a concrete two-line stream
with an unclosed `lookup a {`. -/
theorem C6_unmatched_open_raises_witness :
    featLoopF 2 [str "lookup a \x7b", str "sub x by y;"] none none
      ⟨[], [], [], []⟩ = Except.error PErr.exception :=
  C6_unmatched_open_raises 1 (str "lookup a \x7b") [str "sub x by y;"] none none
    ⟨[], [], [], []⟩ (str "a") ⟨by decide, by decide⟩ (by decide) (by decide)

/-- The C3 collision scenario: a class `@Foo`, a lookup `Foo` whose only rule
the glyph filter will drop, and a bare reference `lookup Foo;`. -/
def c3Body : Str :=
  str "@Foo = [x y];\nlookup Foo \x7b\nsub a by b;\n\x7d Foo;\nlookup Foo;\n"

/-- The parsed C3 collision feature. -/
def c3feat : Feature := getFeat (Feature.ofBody (str "test") c3Body)

/-- The C3 glyph filter (drops the lookup's rule, keeps the class glyphs). -/
def c3glyphs : Option GlyphsArg := some (GlyphsArg.ofList [str "x", str "y", str "z"])

/-- The C3 subset result. -/
def c3sub : Feature :=
  match Feature.subset c3feat none none c3glyphs with
  | some g => g
  | none => c3feat

/-- C3 (counterexample): after subsetting, a surviving bare `lookup Foo;`
reference remains *unreplaced* although no Lookup block named `Foo` exists
anywhere in the filtered sequence and the original sequence defined one —
`check_lookup_exists` is satisfied by the same-named class definition
`@Foo`, which suppresses the repair. -/
theorem C3_counterexample :
    Feature.subset c3feat none none c3glyphs = some c3sub
    ∧ (c3sub.code_sequence.any (fun it =>
        match it with
        | FItem.lf x => x.lookup_reference == some (str "Foo")
        | _ => false) = true)
    ∧ (c3sub.code_sequence.all (fun it =>
        match it with
        | FItem.lk _ => false
        | _ => true) = true)
    ∧ (c3feat.code_sequence.any (fun it =>
        match it with
        | FItem.lk lk => lk.name == str "Foo"
        | _ => false) = true) := by
  refine ⟨by decide, by decide, by decide, by decide⟩

/-- If some item of the sequence carries a name, it still does after a
LookupFlag position (which carries no name) is overwritten. -/
theorem checkLookupExists_set_lf (cur : List FItem) (i : Nat) (x : LookupFlag)
    (v : FItem) (ref : Str) (hget : cur[i]? = some (FItem.lf x))
    (hex : checkLookupExists cur ref = true) :
    checkLookupExists (cur.set i v) ref = true := by
  rcases List.any_eq_true.mp hex with ⟨it, hit, hmatch⟩
  rcases List.mem_iff_getElem?.mp hit with ⟨k, hk⟩
  have hki : k ≠ i := by
    intro hcontra
    subst hcontra
    rw [hget] at hk
    injection hk with hk
    subst hk
    simp at hmatch
  refine List.any_eq_true.mpr ⟨it, ?_, hmatch⟩
  refine List.mem_iff_getElem?.mpr ⟨k, ?_⟩
  rw [List.getElem?_set_ne (fun hcontra => hki hcontra.symm)]
  exact hk

/-- After the repair pass reaches index `j`, any LookupFlag at an already
scanned position whose truthy reference the original sequence can still
resolve has its name carried by some item of the sequence. -/
def noFixableDangling (orig cur : List FItem) (bound : Nat) : Prop :=
  ∀ j, j < bound → ∀ (x : LookupFlag) (ref : Str),
    cur[j]? = some (FItem.lf x) → x.lookup_reference = some ref →
    truthyRef (some ref) = true →
    (∃ lk, lastLookupNamed orig ref = some lk) →
    checkLookupExists cur ref = true

/-- The repair loop establishes `noFixableDangling` over the whole sequence,
given enough fuel. -/
theorem repairAuxF_no_dangling (orig : List FItem) :
    ∀ (fuel i : Nat) (cur : List FItem),
      noFixableDangling orig cur i → cur.length ≤ fuel + i →
      noFixableDangling orig (repairAuxF orig fuel i cur)
        (repairAuxF orig fuel i cur).length := by
  intro fuel
  induction fuel with
  | zero =>
    intro i cur hinv hlen
    have e : repairAuxF orig 0 i cur = cur := rfl
    rw [e]
    intro j hj x ref hget href htr hex
    exact hinv j (by omega) x ref hget href htr hex
  | succ fuel ih =>
    intro i cur hinv hlen
    unfold repairAuxF
    rcases hget : cur[i]? with _ | it
    · have hle : cur.length ≤ i := List.getElem?_eq_none_iff.mp hget
      intro j hj
      exact hinv j (lt_of_lt_of_le hj hle)
    · have hi : i < cur.length := by
        rcases List.getElem?_eq_some.mp hget with ⟨hi, _⟩
        exact hi
      rcases it with x | x | x | x <;> dsimp only
      · by_cases hc : truthyRef x.lookup_reference = true
          ∧ ¬ checkLookupExists cur (x.lookup_reference.getD []) = true
        · rw [if_pos hc]
          rcases hlast : lastLookupNamed orig (x.lookup_reference.getD []) with _ | lk
          · refine ih (i + 1) cur ?_ (by omega)
            intro j hj x2 ref2 hget2 href2 htr2 hex2
            rcases Nat.lt_succ_iff_lt_or_eq.mp hj with hj2 | hj2
            · exact hinv j hj2 x2 ref2 hget2 href2 htr2 hex2
            · subst hj2
              rw [hget] at hget2
              injection hget2 with hget2
              injection hget2 with hget2
              subst hget2
              rw [href2] at hlast
              have hlast2 : lastLookupNamed orig ref2 = none := hlast
              rcases hex2 with ⟨lk2, hlk2⟩
              rw [hlast2] at hlk2
              exact absurd hlk2 (by simp)
          · refine ih (i + 1) (cur.set i (FItem.lk lk)) ?_ (by rw [List.length_set]; omega)
            intro j hj x2 ref2 hget2 href2 htr2 hex2
            rcases Nat.lt_succ_iff_lt_or_eq.mp hj with hj2 | hj2
            · have hne : i ≠ j := by omega
              rw [List.getElem?_set_ne hne] at hget2
              exact checkLookupExists_set_lf cur i x (FItem.lk lk) ref2 hget
                (hinv j hj2 x2 ref2 hget2 href2 htr2 hex2)
            · subst hj2
              rw [List.getElem?_set_eq_of_lt (FItem.lk lk) hi] at hget2
              exact absurd hget2 (by simp)
        · rw [if_neg hc]
          refine ih (i + 1) cur ?_ (by omega)
          intro j hj x2 ref2 hget2 href2 htr2 hex2
          rcases Nat.lt_succ_iff_lt_or_eq.mp hj with hj2 | hj2
          · exact hinv j hj2 x2 ref2 hget2 href2 htr2 hex2
          · subst hj2
            rw [hget] at hget2
            injection hget2 with hget2
            injection hget2 with hget2
            subst hget2
            have htr : truthyRef x.lookup_reference = true := by rw [href2]; exact htr2
            have hrefeq : x.lookup_reference.getD [] = ref2 := by rw [href2]; rfl
            rcases not_and_or.mp hc with hbad | hok
            · exact absurd htr hbad
            · rw [← hrefeq]
              exact not_not.mp hok
      · refine ih (i + 1) cur ?_ (by omega)
        intro j hj x2 ref2 hget2 href2 htr2 hex2
        rcases Nat.lt_succ_iff_lt_or_eq.mp hj with hj2 | hj2
        · exact hinv j hj2 x2 ref2 hget2 href2 htr2 hex2
        · subst hj2
          rw [hget] at hget2
          exact absurd hget2 (by simp)
      · refine ih (i + 1) cur ?_ (by omega)
        intro j hj x2 ref2 hget2 href2 htr2 hex2
        rcases Nat.lt_succ_iff_lt_or_eq.mp hj with hj2 | hj2
        · exact hinv j hj2 x2 ref2 hget2 href2 htr2 hex2
        · subst hj2
          rw [hget] at hget2
          exact absurd hget2 (by simp)
      · refine ih (i + 1) cur ?_ (by omega)
        intro j hj x2 ref2 hget2 href2 htr2 hex2
        rcases Nat.lt_succ_iff_lt_or_eq.mp hj with hj2 | hj2
        · exact hinv j hj2 x2 ref2 hget2 href2 htr2 hex2
        · subst hj2
          rw [hget] at hget2
          exact absurd hget2 (by simp)

/-- C3 (amended): (i) when the repair scan reaches a LookupFlag whose truthy
reference no item of the *current* (partially repaired) sequence carries —
note a same-named class definition carries the name and suppresses repair —
and the original sequence has a Lookup of that name, the reference is
replaced in place by a copy of the (last) original Lookup; (ii) consequently
after the repair pass no surviving reference that the original could resolve
is left dangling under the code's own name check. -/
theorem C3_reference_repair :
    (∀ (orig : List FItem) (fuel i : Nat) (cur : List FItem) (x : LookupFlag)
        (ref : Str) (lk : Lookup),
      cur[i]? = some (FItem.lf x) → x.lookup_reference = some ref →
      truthyRef (some ref) = true → checkLookupExists cur ref = false →
      lastLookupNamed orig ref = some lk →
      repairAuxF orig (fuel + 1) i cur
        = repairAuxF orig fuel (i + 1) (cur.set i (FItem.lk lk)))
    ∧ (∀ (orig cur : List FItem) (j : Nat) (x : LookupFlag) (ref : Str),
        (repair orig cur)[j]? = some (FItem.lf x) →
        x.lookup_reference = some ref → truthyRef (some ref) = true →
        (∃ lk, lastLookupNamed orig ref = some lk) →
        checkLookupExists (repair orig cur) ref = true) := by
  constructor
  · intro orig fuel i cur x ref lk hget href htr hchk hlast
    rw [repairAuxF, hget]
    dsimp only
    have hrefeq : x.lookup_reference.getD [] = ref := by rw [href]; rfl
    rw [hrefeq]
    rw [if_pos ⟨by rw [href]; exact htr, by simp [hchk]⟩, hlast]
  · intro orig cur j x ref hget href htr hex
    have hj : j < (repair orig cur).length := by
      rcases List.getElem?_eq_some.mp hget with ⟨hj, _⟩
      exact hj
    exact repairAuxF_no_dangling orig cur.length 0 cur (fun j hj => absurd hj (by omega))
      (by omega) j hj x ref hget href htr hex

/-- C3 witness: the replacement equation applied to a concrete one-reference
sequence whose original defines the lookup. -/
theorem C3_reference_repair_witness :
    repairAuxF
        [FItem.lk { name := str "L1", script := none, language := none,
                    scripts := [], languages := [], all_glyphs := [],
                    code_sequence := [] }] 1 0
        [FItem.lf (mkLookupFlag (lookupRefLine (str "L1")))]
      = repairAuxF
          [FItem.lk { name := str "L1", script := none, language := none,
                      scripts := [], languages := [], all_glyphs := [],
                      code_sequence := [] }] 0 1
          ([FItem.lf (mkLookupFlag (lookupRefLine (str "L1")))].set 0
            (FItem.lk { name := str "L1", script := none, language := none,
                        scripts := [], languages := [], all_glyphs := [],
                        code_sequence := [] })) :=
  C3_reference_repair.1 _ 0 0 _ (mkLookupFlag (lookupRefLine (str "L1")))
    (str "L1") _ (by decide) (by decide) (by decide) (by decide) (by decide)

/-! ## Round-trip machinery (claim C2)

`fitemLines` gives the stripped source lines a parsed statement serializes
to; `replayF` is the item-level mirror of the parse loop on those lines; the
decidable `featureWF` collects the side conditions under which serializing
and re-parsing reproduces the AST. -/

/-- Whether `needle` occurs as a substring of `s`. -/
def containsSub (needle s : Str) : Bool := (findSub needle s).isSome

/-- A well-formed statement line: nonempty, fixed under `strip`, newline-free. -/
def lineTrim (l : Str) : Bool := !l.isEmpty && strip l == l && !(l.contains '\n')

/-- The stripped line of one Lookup-scope statement. -/
def litemLine : LItem → Str
  | .lf x => x.raw
  | .cls x => x.raw
  | .sub x => x.write 0

/-- The stripped lines of a serialized Lookup block: open line, one line per
child, close line. -/
def lookupLines (x : Lookup) : List Str :=
  (str "lookup " ++ x.name ++ [' ', lbC])
    :: (x.code_sequence.map litemLine ++ [[rbC, ' '] ++ x.name ++ [';']])

/-- The stripped lines one Feature-scope statement serializes to. -/
def fitemLines : FItem → List Str
  | .lf x => [x.raw]
  | .cls x => [x.raw]
  | .lk x => lookupLines x
  | .sub x => [x.write 0]

/-- The item-level replay of `featLoopF`: what re-parsing each statement's
serialized lines appends, and how the scope threads, branch for branch. -/
def replayF : List FItem → Option Str → Option Str → FAcc → FAcc
  | [], _, _, st => st
  | it :: rest, cs, cl, st =>
    match it with
    | .lf x =>
      if x.raw.head? = some '#' then
        replayF rest cs cl { st with seq := st.seq ++ [.lf (mkLookupFlag x.raw)] }
      else
        let r := lfScopeStep x.raw st.scripts st.languages cs cl
        let obj := r.1
        let st2 := { st with scripts := r.2.1, languages := r.2.2.1 }
        let cs2 := r.2.2.2.1
        let cl2 := r.2.2.2.2
        let st3 :=
          match obj.lookup_reference with
          | some ref => { st2 with seq := extendLookups st2.seq ref cs2 cl2 }
          | none => st2
        replayF rest cs2 cl2 { st3 with seq := st3.seq ++ [.lf obj] }
    | .cls x =>
      let obj := mkInFeatureClass x.raw cs cl
      replayF rest cs cl
        { st with
          seq := st.seq ++ [.cls obj]
          all_glyphs := setUnion st.all_glyphs obj.members }
    | .sub x =>
      let obj := Substitution.mk' (x.write 0) cs cl
      replayF rest cs cl
        { st with
          seq := st.seq ++ [.sub obj]
          all_glyphs := setUnion st.all_glyphs obj.all_glyphs }
    | .lk x =>
      let obj := Lookup.ofLines (lookupLines x) cs cl
      let obj2 :=
        { obj with
          scripts := (if cs ≠ none ∧ obj.scripts = [] then [cs.getD []] else obj.scripts)
          languages := (if cl ≠ none ∧ obj.languages = [] then [cl.getD []] else obj.languages) }
      replayF rest cs cl
        { st with
          seq := st.seq ++ [.lk obj2]
          scripts := setUnion st.scripts obj.scripts
          languages := setUnion st.languages obj.languages
          all_glyphs := setUnion st.all_glyphs obj.all_glyphs }

/-- Classification guards for a control/comment statement's line. -/
def lfLineOk (x : LookupFlag) : Bool :=
  lineTrim x.raw && !(x.raw.head? == some '@')
    && !((str "lookup").isPrefixOf x.raw && x.raw.getLast? == some lbC)
    && !((str "sub").isPrefixOf x.raw)

/-- Classification guards for a class definition's line. -/
def clsLineOk (x : InFeatureClass) : Bool :=
  lineTrim x.raw && x.raw.head? == some '@'

/-- Guard for a substitution's serialized line. -/
def subLineOk (x : Substitution) : Bool := lineTrim (x.write 0)

/-- Conditions on a block name for the open/close lines to scan back
faithfully: a nonempty identifier with no braces and no whitespace. -/
def lookupNameOk (nm : Str) : Bool :=
  !nm.isEmpty && !(nm.contains lbC) && !(nm.contains rbC) && !(nm.any isWs)

/-- Guards for one Lookup-scope child: its own line guards, and its line must
not spuriously match the enclosing block's close pattern. -/
def litemOk (blockName : Str) : LItem → Bool
  | .lf x => lfLineOk x && !closeMatch blockName x.raw
  | .cls x => clsLineOk x && !closeMatch blockName x.raw
  | .sub x => subLineOk x && !closeMatch blockName (x.write 0)

/-- Guards for a serialized Lookup block. -/
def lookupOk (x : Lookup) : Bool :=
  lookupNameOk x.name && x.code_sequence.all (litemOk x.name)

/-- Guards for one Feature-scope statement. -/
def fitemOk : FItem → Bool
  | .lf x => lfLineOk x
  | .cls x => clsLineOk x
  | .lk x => lookupOk x
  | .sub x => subLineOk x

/-- The decidable well-formedness under which a parsed Feature serializes and
re-parses to itself: a well-formed name, well-formed statement lines, and
agreement of the stored AST with its own replay. -/
def featureWF (f : Feature) : Bool :=
  lookupNameOk f.name
    && !f.code_sequence.isEmpty
    && f.code_sequence.all fitemOk
    && (let st := replayF f.code_sequence none none ⟨[], [], [], []⟩
        f == { name := f.name, code_sequence := st.seq, scripts := st.scripts,
               languages := st.languages, all_glyphs := st.all_glyphs })

/-- `splitOnChar` never produces an empty chunk list. -/
theorem splitOnChar_ne_nil (sep : Char) (s : Str) : splitOnChar sep s ≠ [] := by
  induction s with
  | nil => simp [splitOnChar]
  | cons c rest ih =>
    simp only [splitOnChar]
    split
    · simp
    · rcases h : splitOnChar sep rest with _ | ⟨x, xs⟩
      · exact absurd h ih
      · simp [h]

/-! ### Strip and split/join inversions -/

/-- A strip-fixed string is fixed under the leading whitespace drop. -/
theorem dropWhile_eq_self_of_strip (l : Str) (h : strip l = l) :
    l.dropWhile isWs = l := by
  rcases l with _ | ⟨c, t⟩
  · rfl
  · by_cases hc : isWs c = true
    · exfalso
      have hlen : (strip (c :: t)).length ≤ t.length := by
        unfold strip
        rw [List.dropWhile_cons, if_pos hc]
        have h1 := (List.dropWhile_sublist isWs :
          List.Sublist (t.dropWhile isWs) t).length_le
        have h2 := (List.dropWhile_sublist isWs :
          List.Sublist ((t.dropWhile isWs).reverse.dropWhile isWs)
            (t.dropWhile isWs).reverse).length_le
        simp only [List.length_reverse] at *
        omega
      rw [h] at hlen
      simp at hlen
    · rw [List.dropWhile_cons, if_neg hc]

/-- Tab indentation is stripped away from a strip-fixed line. -/
theorem strip_tabs_append (n : Nat) (l : Str) (h : strip l = l) :
    strip (tabs n ++ l) = l := by
  have htabs : (tabs n).dropWhile isWs = [] := by
    induction n with
    | zero => rfl
    | succ k ih =>
      show ('\t' :: tabs k).dropWhile isWs = []
      rw [List.dropWhile_cons, if_pos (by rfl)]
      exact ih
  have hfront : (tabs n ++ l).dropWhile isWs = l := by
    rw [List.dropWhile_append, htabs]
    simp only [List.isEmpty_nil, if_pos rfl]
    exact dropWhile_eq_self_of_strip l h
  show (((tabs n ++ l).dropWhile isWs).reverse.dropWhile isWs).reverse = l
  rw [hfront]
  have := h
  unfold strip at this
  rw [dropWhile_eq_self_of_strip l h] at this
  exact this

/-- The one-step unfolding of `splitOnChar`. -/
theorem splitOnChar_cons_eq (sep c : Char) (rest : Str) :
    splitOnChar sep (c :: rest)
      = if c = sep then [] :: splitOnChar sep rest
        else match splitOnChar sep rest with
          | [] => [[c]]
          | h :: t => (c :: h) :: t := rfl

/-- Splitting distributes over a separator occurrence. -/
theorem splitOnChar_append_cons (c : Char) (x y : Str) :
    splitOnChar c (x ++ c :: y) = splitOnChar c x ++ splitOnChar c y := by
  induction x with
  | nil =>
    show splitOnChar c (c :: y) = splitOnChar c [] ++ splitOnChar c y
    rw [splitOnChar_cons_eq, if_pos rfl]
    rfl
  | cons a t ih =>
    show splitOnChar c (a :: (t ++ c :: y)) = splitOnChar c (a :: t) ++ splitOnChar c y
    rw [splitOnChar_cons_eq, splitOnChar_cons_eq]
    by_cases hac : a = c
    · rw [if_pos hac, if_pos hac, ih]
      rfl
    · rw [if_neg hac, if_neg hac, ih]
      rcases hsp : splitOnChar c t with _ | ⟨h1, t1⟩
      · exact absurd hsp (splitOnChar_ne_nil c t)
      · rfl

/-- A separator-free string splits to itself. -/
theorem splitOnChar_of_not_contains (c : Char) (l : Str) (h : l.contains c = false) :
    splitOnChar c l = [l] := by
  induction l with
  | nil => rfl
  | cons a t ih =>
    have hac : ¬ a = c := by
      intro hcontra
      subst hcontra
      simp [List.contains_cons] at h
    have ht : t.contains c = false := by
      simp [List.contains_cons] at h
      simp [h.2]
    unfold splitOnChar
    rw [if_neg hac, ih ht]

/-- Splitting a joined list of separator-free chunks recovers the chunks. -/
theorem splitOnChar_joinSep (c : Char) (parts : List Str) (hne : parts ≠ [])
    (h : ∀ p ∈ parts, p.contains c = false) :
    splitOnChar c (joinSep c parts) = parts := by
  induction parts with
  | nil => exact absurd rfl hne
  | cons p ps ih =>
    rcases ps with _ | ⟨p2, ps2⟩
    · exact splitOnChar_of_not_contains c p (h p (by simp))
    · show splitOnChar c (p ++ c :: joinSep c (p2 :: ps2)) = p :: p2 :: ps2
      rw [splitOnChar_append_cons, splitOnChar_of_not_contains c p (h p (by simp)),
        ih (by simp) (fun q hq => h q (by simp [hq]))]
      rfl

/-- The per-line postprocessing of `codeLines`: strip then drop empties. -/
def stripLines (ls : List Str) : List Str :=
  (ls.map strip).filter (fun l => !l.isEmpty)

/-- `stripLines` distributes over append. -/
theorem stripLines_append (a b : List Str) :
    stripLines (a ++ b) = stripLines a ++ stripLines b := by
  unfold stripLines
  rw [List.map_append, List.filter_append]

/-! ### Serialized-line shape lemmas -/

/-- Components of `lineTrim`. -/
theorem lineTrim_spec (l : Str) (h : lineTrim l = true) :
    l.isEmpty = false ∧ strip l = l ∧ l.contains '\n' = false := by
  unfold lineTrim at h
  simp only [Bool.and_eq_true, Bool.not_eq_true', beq_iff_eq] at h
  exact ⟨h.1.1, h.1.2, h.2⟩

/-- A string with non-whitespace first and last characters is strip-fixed. -/
theorem strip_eq_self (l : Str)
    (h1 : ∀ c, l.head? = some c → isWs c = false)
    (h2 : ∀ c, l.getLast? = some c → isWs c = false) : strip l = l := by
  have hfront : l.dropWhile isWs = l := by
    rcases l with _ | ⟨c, t⟩
    · rfl
    · rw [List.dropWhile_cons, if_neg (by simp [h1 c rfl])]
  have hback : l.reverse.dropWhile isWs = l.reverse := by
    rcases hr : l.reverse with _ | ⟨c, t⟩
    · rfl
    · rw [List.dropWhile_cons, if_neg ?_]
      have : l.getLast? = some c := by
        rw [← List.head?_reverse, hr]
        rfl
      simp [h2 c this]
  show ((l.dropWhile isWs).reverse.dropWhile isWs).reverse = l
  rw [hfront, hback, List.reverse_reverse]

/-- `contains` over an append. -/
theorem contains_append_eq (a b : Str) (c : Char) :
    (a ++ b).contains c = (a.contains c || b.contains c) := by
  induction a with
  | nil => simp
  | cons x t ih => simp [List.contains_cons, ih, Bool.or_assoc]

/-- Tabs contain no newline. -/
theorem tabs_no_nl (n : Nat) : (tabs n).contains '\n' = false := by
  induction n with
  | zero => rfl
  | succ k ih =>
    show (('\t' :: tabs k).contains '\n') = false
    simp only [List.contains_cons, ih, Bool.or_false]
    rfl

/-- A written single-line statement splits and strips back to its core line. -/
theorem stripLines_single (l : Str) (tl : Nat) (h : lineTrim l = true) :
    stripLines (splitOnChar '\n' (tabs tl ++ l)) = [l] := by
  rcases lineTrim_spec l h with ⟨hne, hstrip, hnl⟩
  have hfull : (tabs tl ++ l).contains '\n' = false := by
    rw [contains_append_eq, tabs_no_nl, hnl]
    rfl
  rw [splitOnChar_of_not_contains '\n' _ hfull]
  unfold stripLines
  simp only [List.map_cons, List.map_nil, List.filter]
  rw [strip_tabs_append tl l hstrip]
  simp [hne]

/-- `LookupFlag.write` is tab indentation plus the raw line. -/
theorem lf_write_tabs (x : LookupFlag) (tl : Nat) : x.write tl = tabs tl ++ x.raw := rfl

/-- `InFeatureClass.write` is tab indentation plus the raw line. -/
theorem cls_write_tabs (x : InFeatureClass) (tl : Nat) : x.write tl = tabs tl ++ x.raw := rfl

/-- `Substitution.write` is tab indentation plus its zero-indentation line. -/
theorem sub_write_tabs (x : Substitution) (tl : Nat) :
    x.write tl = tabs tl ++ x.write 0 := by
  unfold Substitution.write
  rcases hx : x.is_chaining <;> simp [hx, tabs]

/-- `LItem.write` is tab indentation plus the statement's core line. -/
theorem litem_write_tabs (it : LItem) (tl : Nat) :
    it.write tl = tabs tl ++ litemLine it := by
  rcases it with x | x | x
  · rfl
  · rfl
  · exact sub_write_tabs x tl

/-- Splitting a joined list distributes chunk by chunk. -/
theorem splitOnChar_joinSep_flat (c : Char) (parts : List Str) (hne : parts ≠ []) :
    splitOnChar c (joinSep c parts) = parts.flatMap (splitOnChar c) := by
  induction parts with
  | nil => exact absurd rfl hne
  | cons p ps ih =>
    rcases ps with _ | ⟨p2, ps2⟩
    · simp [joinSep]
    · show splitOnChar c (p ++ c :: joinSep c (p2 :: ps2)) = _
      rw [splitOnChar_append_cons, ih (by simp)]
      simp

/-! ### Open/close line lemmas for serialized lookup blocks -/

/-- The open line `lookup NAME {`. -/
def openLine (nm : Str) : Str := str "lookup " ++ nm ++ [' ', lbC]

/-- The close line `} NAME;`. -/
def closeLine (nm : Str) : Str := [rbC, ' '] ++ nm ++ [';']

/-- `lookupLines` in terms of the open/close lines. -/
theorem lookupLines_eq (x : Lookup) :
    lookupLines x = openLine x.name :: (x.code_sequence.map litemLine ++ [closeLine x.name]) := rfl

/-- A whitespace-free string contains no given whitespace character. -/
theorem contains_false_of_no_ws (nm : Str) (h : nm.any isWs = false) (c : Char)
    (hc : isWs c = true) : nm.contains c = false := by
  induction nm with
  | nil => rfl
  | cons a t ih =>
    simp only [List.any_cons, Bool.or_eq_false_iff] at h
    have hca : (c == a) = false := by
      rcases hb : c == a with _ | _
      · rfl
      · exact absurd (beq_iff_eq.mp hb ▸ hc) (by simp [h.1])
    simp only [List.contains_cons, hca, Bool.false_or]
    exact ih h.2

/-- A `}`-free line can never match a close pattern. -/
theorem closeMatch_false_of_no_rbC (nm l : Str) (h : l.contains rbC = false) :
    closeMatch nm l = false := by
  rcases hcm : closeMatch nm l with _ | _
  · rfl
  · exfalso
    rcases List.any_eq_true.mp hcm with ⟨t, htails, hmatch⟩
    rcases t with _ | ⟨c, r⟩
    · simp at hmatch
    · dsimp only at hmatch
      simp only [Bool.and_eq_true, decide_eq_true_eq] at hmatch
      have hc : c = rbC := hmatch.1
      subst hc
      have hmem : rbC ∈ l := by
        have hsuf : List.IsSuffix (rbC :: r) l := (List.mem_tails _ _).mp htails
        exact hsuf.subset (by simp)
      have hcontains : List.contains l rbC = true := List.elem_iff.mpr hmem
      rw [hcontains] at h
      exact absurd h (by simp)

/-- The serialized close line matches its own close pattern. -/
theorem closeMatch_closeLine (nm : Str) : closeMatch nm (closeLine nm) = true := by
  unfold closeMatch
  refine List.any_eq_true.mpr
    ⟨closeLine nm, (List.mem_tails _ _).mpr (List.suffix_refl _), ?_⟩
  unfold closeLine
  simp only [List.cons_append, List.nil_append]
  have hpre : nm.isPrefixOf (nm ++ [';']) = true :=
    List.isPrefixOf_iff_prefix.mpr ⟨[';'], rfl⟩
  rw [List.drop_left]
  simp [hpre]

/-- The open line of a block with a brace-free name contains no `}`. -/
theorem openLine_no_rbC (nm : Str) (h : nm.contains rbC = false) :
    (openLine nm).contains rbC = false := by
  unfold openLine
  rw [contains_append_eq, contains_append_eq, h]
  rfl

/-- Auxiliary index shift for substring search. -/
theorem findSubAux_shift (needle : Str) :
    ∀ (s : Str) (i : Nat), findSubAux needle s i = (findSubAux needle s 0).map (· + i) := by
  intro s
  induction s with
  | nil =>
    intro i
    unfold findSubAux
    rcases h : decide (needle = []) with _ | _ <;> simp_all
  | cons h t ih =>
    intro i
    unfold findSubAux
    by_cases hp : needle.isPrefixOf (h :: t) = true
    · simp [hp]
    · rw [if_neg (by simp [hp]), if_neg (by simp [hp]), ih (i + 1), ih 1,
        Option.map_map]
      rcases findSubAux needle t 0 with _ | k
      · rfl
      · show some (k + (i + 1)) = some (k + 1 + i)
        congr 1
        omega

/-- The one-step unfolding of `findSubAux` on a nonempty haystack. -/
theorem findSubAux_cons (needle : Str) (h : Char) (t : Str) (i : Nat) :
    findSubAux needle (h :: t) i
      = if needle.isPrefixOf (h :: t) = true then some i
        else findSubAux needle t (i + 1) := rfl

/-- A prefix occurrence is found at index zero. -/
theorem findSub_zero_of_isPrefixOf (needle s : Str) (h : needle.isPrefixOf s = true) :
    findSub needle s = some 0 := by
  rcases s with _ | ⟨c, t⟩
  · have : needle = [] := by
      rcases needle with _ | _
      · rfl
      · simp [List.isPrefixOf] at h
    subst this
    rfl
  · unfold findSub findSubAux
    rw [if_pos h]

/-- In `NAME' ++ " {"` with a whitespace-free `NAME'`, the first ` {` is at
the very end. -/
theorem findSub_name_brace (nm2 : Str) (h : nm2.any isWs = false) :
    findSub (' ' :: [lbC]) (nm2 ++ [' ', lbC]) = some nm2.length := by
  induction nm2 with
  | nil => rfl
  | cons a t ih =>
    simp only [List.any_cons, Bool.or_eq_false_iff] at h
    have hpre : (' ' :: [lbC]).isPrefixOf (a :: (t ++ [' ', lbC])) = false := by
      show ((' ' == a) && _) = false
      have hsp : (' ' == a) = false := by
        rcases hb : ' ' == a with _ | _
        · rfl
        · have ha : a = ' ' := (beq_iff_eq.mp hb).symm
          rw [ha] at h
          exact absurd h.1 (by decide)
      simp [hsp]
    show findSubAux (' ' :: [lbC]) ((a :: t) ++ [' ', lbC]) 0 = some (t.length + 1)
    rw [show ((a :: t) ++ [' ', lbC] : Str) = a :: (t ++ [' ', lbC]) from rfl]
    rw [findSubAux_cons, if_neg (by rw [hpre]; exact Bool.false_ne_true),
      findSubAux_shift]
    show (findSub (' ' :: [lbC]) (t ++ [' ', lbC])).map (· + 1) = some (t.length + 1)
    rw [ih h.2]
    rfl

/-- `extractLookupName` recovers a well-formed name from its open line. -/
theorem extractLookupName_openLine (nm : Str) (hok : lookupNameOk nm = true) :
    extractLookupName (openLine nm) = some nm := by
  have hne : nm ≠ [] := by
    rcases hn : nm with _ | _
    · unfold lookupNameOk at hok
      rw [hn] at hok
      simp at hok
    · simp
  have hws : nm.any isWs = false := by
    unfold lookupNameOk at hok
    simp only [Bool.and_eq_true, Bool.not_eq_true'] at hok
    exact hok.2
  rcases nm with _ | ⟨n0, nm2⟩
  · exact absurd rfl hne
  · unfold extractLookupName searchLazyGroup openLine
    simp only [List.append_assoc]
    rw [findSub_zero_of_isPrefixOf _ _
      (List.isPrefixOf_iff_prefix.mpr ⟨(n0 :: nm2) ++ [' ', lbC], rfl⟩)]
    dsimp only
    have hdrop : (str "lookup " ++ ((n0 :: nm2) ++ [' ', lbC])).drop
        (0 + (str "lookup ").length) = (n0 :: nm2) ++ [' ', lbC] := by
      rw [Nat.zero_add]
      exact List.drop_left _ _
    rw [hdrop]
    have hdrop1 : ((n0 :: nm2) ++ [' ', lbC]).drop 1 = nm2 ++ [' ', lbC] := rfl
    rw [hdrop1]
    have hws2 : nm2.any isWs = false := by
      simp only [List.any_cons, Bool.or_eq_false_iff] at hws
      exact hws.2
    rw [show (str " " ++ [lbC] : Str) = ' ' :: [lbC] from rfl, findSub_name_brace nm2 hws2]
    show some (((n0 :: nm2) ++ [' ', lbC]).take (nm2.length + 1)) = some (n0 :: nm2)
    rw [List.take_left' (by simp)]

/-! ### Guard lemmas for the serialized statement lines -/

/-- The `sub ` literal decomposed at its first character. -/
theorem str_sub_cons : str "sub " = 's' :: str "ub " := by decide

/-- The `sub ` literal decomposed at the keyword boundary. -/
theorem str_sub_space : str "sub " = str "sub" ++ [' '] := by decide

/-- The `lookup ` literal decomposed at its first character. -/
theorem str_lookup_cons : str "lookup " = 'l' :: str "ookup " := by decide

/-- The `lookup ` literal decomposed at the keyword boundary. -/
theorem str_lookup_space : str "lookup " = str "lookup" ++ [' '] := by decide

/-- A list with a first element is nonempty. -/
theorem isEmpty_false_of_head (l : Str) (c : Char) (h : l.head? = some c) :
    l.isEmpty = false := by
  rcases l with _ | ⟨a, t⟩
  · simp at h
  · rfl

/-- A zero-indented substitution line is `sub ` plus a `;`-terminated rest. -/
theorem sub_write0_decomp (x : Substitution) :
    ∃ r : Str, x.write 0 = str "sub " ++ r ++ [';'] := by
  unfold Substitution.write
  rcases hx : x.is_chaining
  · exact ⟨seqToStr x.input_sequence ++ str " by " ++ seqToStr x.output_sequence,
      by simp [tabs, List.append_assoc]⟩
  · exact ⟨seqToStr x.input_sequence, by simp [tabs, List.append_assoc]⟩

/-- A zero-indented substitution line starts with `s`. -/
theorem sub_write0_head (x : Substitution) : (x.write 0).head? = some 's' := by
  rcases sub_write0_decomp x with ⟨r, hr⟩
  rw [hr, str_sub_cons]
  rfl

/-- A zero-indented substitution line has the `sub` keyword prefix. -/
theorem sub_write0_keyword (x : Substitution) :
    (str "sub").isPrefixOf (x.write 0) = true := by
  rcases sub_write0_decomp x with ⟨r, hr⟩
  rw [hr]
  exact List.isPrefixOf_iff_prefix.mpr
    ⟨[' '] ++ (r ++ [';']), by simp [str_sub_space, List.append_assoc]⟩

/-- A zero-indented substitution line ends with `;`. -/
theorem sub_write0_getLast (x : Substitution) : (x.write 0).getLast? = some ';' := by
  rcases sub_write0_decomp x with ⟨r, hr⟩
  rw [hr]
  exact List.getLast?_concat _

/-- The open line starts with `l`. -/
theorem openLine_head (nm : Str) : (openLine nm).head? = some 'l' := by
  unfold openLine
  rw [str_lookup_cons]
  rfl

/-- The open line satisfies the lookup-open classifier guard. -/
theorem openLine_guard (nm : Str) :
    (str "lookup").isPrefixOf (openLine nm) = true
      ∧ (openLine nm).getLast? = some lbC := by
  constructor
  · exact List.isPrefixOf_iff_prefix.mpr
      ⟨[' '] ++ (nm ++ [' ', lbC]), by
        unfold openLine
        simp [str_lookup_space, List.append_assoc]⟩
  · have hsh : openLine nm = ((str "lookup " ++ nm) ++ [' ']) ++ [lbC] := by
      unfold openLine
      simp [List.append_assoc]
    rw [hsh]
    exact List.getLast?_concat _

/-- The components of the control-line guard package. -/
theorem lfLineOk_spec (x : LookupFlag) (h : lfLineOk x = true) :
    lineTrim x.raw = true
    ∧ ¬ x.raw.head? = some '@'
    ∧ ¬((str "lookup").isPrefixOf x.raw = true ∧ x.raw.getLast? = some lbC)
    ∧ ¬ (str "sub").isPrefixOf x.raw = true := by
  unfold lfLineOk at h
  simp only [Bool.and_eq_true, Bool.not_eq_true'] at h
  refine ⟨h.1.1.1, ?_, ?_, ?_⟩
  · intro hc
    have h2 := h.1.1.2
    rw [hc] at h2
    simp at h2
  · intro hc
    have h3 := h.1.2
    rw [hc.1, hc.2] at h3
    simp at h3
  · intro hc
    have h4 := h.2
    rw [hc] at h4
    simp at h4

/-- The components of the class-line guard package. -/
theorem clsLineOk_spec (x : InFeatureClass) (h : clsLineOk x = true) :
    lineTrim x.raw = true ∧ x.raw.head? = some '@' := by
  unfold clsLineOk at h
  simp only [Bool.and_eq_true, beq_iff_eq] at h
  exact h

/-- A well-formed child line never matches the enclosing close pattern. -/
theorem litemOk_no_close (nm : Str) (it : LItem) (h : litemOk nm it = true) :
    closeMatch nm (litemLine it) = false := by
  rcases it with x | x | x <;>
    (unfold litemOk at h
     simp only [Bool.and_eq_true, Bool.not_eq_true'] at h
     exact h.2)

/-- Scanning a run of non-matching lines finds the close line at its end. -/
theorem findCloseIdx_append_close (nm : Str) (ls : List Str)
    (h : ∀ l ∈ ls, closeMatch nm l = false) (rest : List Str) :
    findCloseIdx nm (ls ++ closeLine nm :: rest) = some ls.length := by
  induction ls with
  | nil => simp [findCloseIdx, closeMatch_closeLine]
  | cons a t ih =>
    show findCloseIdx nm (a :: (t ++ closeLine nm :: rest)) = some (t.length + 1)
    rw [findCloseIdx]
    rw [if_neg (by rw [h a (by simp)]; exact Bool.false_ne_true),
      ih (fun l hl => h l (by simp [hl]))]
    rfl

/-- The components of the block guard package. -/
theorem lookupOk_spec (x : Lookup) (h : lookupOk x = true) :
    lookupNameOk x.name = true ∧ x.code_sequence.all (litemOk x.name) = true := by
  unfold lookupOk at h
  simp only [Bool.and_eq_true] at h
  exact h

/-- The close scan over a serialized well-formed block finds exactly the
written close line. -/
theorem findCloseIdx_lookupLines (x : Lookup) (rest : List Str)
    (hok : lookupOk x = true) :
    findCloseIdx x.name
      (openLine x.name :: ((x.code_sequence.map litemLine ++ [closeLine x.name]) ++ rest))
      = some (x.code_sequence.length + 1) := by
  have hnm : lookupNameOk x.name = true := (lookupOk_spec x hok).1
  have hseq : x.code_sequence.all (litemOk x.name) = true := (lookupOk_spec x hok).2
  have hrb : x.name.contains rbC = false := by
    unfold lookupNameOk at hnm
    simp only [Bool.and_eq_true, Bool.not_eq_true'] at hnm
    exact hnm.1.2
  have hopen : closeMatch x.name (openLine x.name) = false :=
    closeMatch_false_of_no_rbC _ _ (openLine_no_rbC _ hrb)
  rw [findCloseIdx]
  rw [if_neg (by rw [hopen]; exact Bool.false_ne_true)]
  have hsh : (x.code_sequence.map litemLine ++ [closeLine x.name]) ++ rest
      = x.code_sequence.map litemLine ++ closeLine x.name :: rest := by
    simp [List.append_assoc]
  rw [hsh, findCloseIdx_append_close x.name _ ?_ rest]
  · simp
  · intro l hl
    rcases List.mem_map.mp hl with ⟨it, hit, hlit⟩
    rw [← hlit]
    exact litemOk_no_close _ _ (List.all_eq_true.mp hseq it hit)

/-- Taking the block's line count from the serialized stream recovers the
block's lines. -/
theorem take_lookupLines (x : Lookup) (rest : List Str) :
    (openLine x.name :: ((x.code_sequence.map litemLine ++ [closeLine x.name]) ++ rest)).take
      (x.code_sequence.length + 1 + 1) = lookupLines x := by
  rw [lookupLines_eq, List.take_succ_cons]
  congr 1
  exact List.take_left' (by simp)

/-- Dropping the block's line count from the serialized stream leaves the
following lines. -/
theorem drop_lookupLines (x : Lookup) (rest : List Str) :
    (openLine x.name :: ((x.code_sequence.map litemLine ++ [closeLine x.name]) ++ rest)).drop
      (x.code_sequence.length + 1 + 1) = rest := by
  rw [List.drop_succ_cons]
  exact List.drop_left' (by simp)

/-- Re-parsing the concatenated serialized lines of a well-formed statement
list replays the statements item by item. -/
theorem featLoopF_replayF (its : List FItem) :
    ∀ (fuel : Nat) (cs cl : Option Str) (st : FAcc),
    its.all fitemOk = true → its.length ≤ fuel →
    featLoopF fuel (its.flatMap fitemLines) cs cl st
      = Except.ok (replayF its cs cl st) := by
  induction its with
  | nil =>
    intro fuel cs cl st _ _
    rcases fuel with _ | f <;> rfl
  | cons it rest ih =>
    intro fuel cs cl st hok hfuel
    rcases fuel with _ | f
    · exact absurd hfuel (by simp)
    simp only [List.all_cons, Bool.and_eq_true] at hok
    have hfuel2 : rest.length ≤ f := by
      simp only [List.length_cons] at hfuel
      omega
    rw [List.flatMap_cons]
    rcases it with x | x | x | x
    · -- control/comment statement
      rcases lfLineOk_spec x hok.1 with ⟨hlt, hat, hlk, hsb⟩
      have hne := (lineTrim_spec _ hlt).1
      show featLoopF (f + 1) (x.raw :: rest.flatMap fitemLines) cs cl st = _
      rw [featLoopF]
      by_cases hc : x.raw.head? = some '#'
      · rw [if_neg (by simp [hne]), if_pos hc, replayF]
        rw [if_pos hc]
        exact ih f cs cl _ hok.2 hfuel2
      · rw [if_neg (by simp [hne]), if_neg hc, if_neg hat, if_neg hlk, if_neg hsb,
          replayF]
        dsimp only
        rw [if_neg hc]
        exact ih f _ _ _ hok.2 hfuel2
    · -- class definition
      rcases clsLineOk_spec x hok.1 with ⟨hlt, hat⟩
      have hne := (lineTrim_spec _ hlt).1
      show featLoopF (f + 1) (x.raw :: rest.flatMap fitemLines) cs cl st = _
      rw [featLoopF]
      rw [if_neg (by simp [hne]), if_neg (by simp [hat]), if_pos hat, replayF]
      exact ih f cs cl _ hok.2 hfuel2
    · -- lookup block
      have hok1 : lookupOk x = true := hok.1
      have hnm : lookupNameOk x.name = true := (lookupOk_spec x hok1).1
      have hlines : fitemLines (FItem.lk x) ++ rest.flatMap fitemLines
          = openLine x.name
            :: ((x.code_sequence.map litemLine ++ [closeLine x.name])
                ++ rest.flatMap fitemLines) := by
        show lookupLines x ++ _ = _
        rw [lookupLines_eq, List.cons_append]
      rw [hlines]
      have hhead := openLine_head x.name
      have hne := isEmpty_false_of_head _ _ hhead
      rw [featLoopF]
      rw [if_neg (by simp [hne]), if_neg (by simp [hhead]), if_neg (by simp [hhead]),
        if_pos (openLine_guard x.name), extractLookupName_openLine x.name hnm]
      dsimp only
      rw [findCloseIdx_lookupLines x _ hok1]
      dsimp only
      rw [take_lookupLines, drop_lookupLines, replayF]
      exact ih f cs cl _ hok.2 hfuel2
    · -- substitution rule
      have hlt : lineTrim (x.write 0) = true := hok.1
      have hne := (lineTrim_spec _ hlt).1
      have hhead := sub_write0_head x
      have hlast := sub_write0_getLast x
      show featLoopF (f + 1) (x.write 0 :: rest.flatMap fitemLines) cs cl st = _
      rw [featLoopF]
      rw [if_neg (by simp [hne]), if_neg (by simp [hhead]), if_neg (by simp [hhead]),
        if_neg (by
          intro hcontra
          rw [hlast] at hcontra
          exact absurd hcontra.2 (by decide)),
        if_pos (sub_write0_keyword x), replayF]
      dsimp only
      exact ih f cs cl _ hok.2 hfuel2

/-! ### The feature regex on written text -/

/-- `lastIdxAux` ignores a segment free of the character. -/
theorem lastIdxAux_no (c : Char) (s : Str) (h : s.contains c = false) :
    ∀ (i : Nat) (acc : Option Nat), lastIdxAux c s i acc = acc := by
  induction s with
  | nil => intro i acc; rfl
  | cons a t ih =>
    intro i acc
    simp only [List.contains_cons, Bool.or_eq_false_iff] at h
    have hac : ¬ a = c := by
      intro hcontra
      subst hcontra
      simp at h
    show lastIdxAux c t (i + 1) (if a = c then some i else acc) = acc
    rw [if_neg hac]
    exact ih h.2 (i + 1) acc

/-- `lastIdxAux` over an append runs the segments in sequence. -/
theorem lastIdxAux_append (c : Char) (a b : Str) :
    ∀ (i : Nat) (acc : Option Nat),
    lastIdxAux c (a ++ b) i acc
      = lastIdxAux c b (i + a.length) (lastIdxAux c a i acc) := by
  induction a with
  | nil => intro i acc; rfl
  | cons x t ih =>
    intro i acc
    show lastIdxAux c (t ++ b) (i + 1) (if x = c then some i else acc)
        = lastIdxAux c b (i + (t.length + 1))
            (lastIdxAux c t (i + 1) (if x = c then some i else acc))
    rw [ih (i + 1)]
    have hidx : i + 1 + t.length = i + (t.length + 1) := by omega
    rw [hidx]

/-- The last occurrence of a character before a tail free of it. -/
theorem lastIdx_append_no_tail (c : Char) (pre post : Str)
    (h : post.contains c = false) :
    lastIdx c (pre ++ c :: post) = some pre.length := by
  unfold lastIdx
  rw [lastIdxAux_append]
  show lastIdxAux c post (0 + pre.length + 1)
      (if c = c then some (0 + pre.length) else lastIdxAux c pre 0 none) = _
  rw [if_pos rfl, lastIdxAux_no c post h]
  simp

/-- The first passing index of a filtered range, when everything below it
fails the predicate. -/
theorem filter_range_first (p : Nat → Bool) (n k : Nat) (hk : k < n)
    (hbelow : ∀ i, i < k → p i = false) (hp : p k = true) :
    ∃ qs, (List.range n).filter p = k :: qs := by
  obtain ⟨m, hm⟩ : ∃ m, n = k + (m + 1) := ⟨n - k - 1, by omega⟩
  subst hm
  rw [List.range_add, List.filter_append]
  have h1 : (List.range k).filter p = [] := by
    rw [List.filter_eq_nil_iff]
    intro a ha
    simp [hbelow a (List.mem_range.mp ha)]
  rw [h1, List.range_succ_eq_map, List.map_cons, List.filter_cons, Nat.add_zero,
    if_pos hp]
  exact ⟨_, rfl⟩

/-- The serialized feature text's name/body extraction: the feature regex on
written output recovers the name and the newline-wrapped inner body. -/
theorem featureNameBody_write (f : Feature) (hnm : lookupNameOk f.name = true) :
    featureNameBody (f.write 0)
      = some (f.name,
          '\n' :: (joinSep '\n' (f.code_sequence.map (FItem.write · 1)) ++ ['\n'])) := by
  have hne : f.name ≠ [] := by
    intro hcontra
    unfold lookupNameOk at hnm
    rw [hcontra] at hnm
    simp at hnm
  have hws : f.name.any isWs = false := by
    unfold lookupNameOk at hnm
    simp only [Bool.and_eq_true, Bool.not_eq_true'] at hnm
    exact hnm.2
  have hrb : f.name.contains rbC = false := by
    unfold lookupNameOk at hnm
    simp only [Bool.and_eq_true, Bool.not_eq_true'] at hnm
    exact hnm.1.2
  set J := joinSep '\n' (f.code_sequence.map (FItem.write · 1)) with hJ
  set A := f.name ++ (' ' :: lbC :: '\n' :: (J ++ '\n' :: rbC :: ' ' :: (f.name ++ [';'])))
    with hA
  have ht : f.write 0 = str "feature " ++ A := by
    rw [hA]
    show tabs 0 ++ str "feature " ++ f.name ++ [' ', lbC] ++ ['\n'] ++ J ++ ['\n']
        ++ tabs 0 ++ [rbC, ' '] ++ f.name ++ [';'] = _
    simp [tabs, List.append_assoc]
  unfold featureNameBody
  rw [ht, findSub_zero_of_isPrefixOf _ _ (List.isPrefixOf_iff_prefix.mpr ⟨A, rfl⟩)]
  dsimp only
  have hdrop8 : (str "feature " ++ A).drop (0 + 8) = A := by
    rw [Nat.zero_add, show (8 : Nat) = (str "feature ").length from by decide]
    exact List.drop_left _ _
  rw [hdrop8]
  have hlenA : f.name.length < A.length + 1 := by
    rw [hA]
    simp only [List.length_append]
    omega
  have hbelow : ∀ i, i < f.name.length
      → (str " " ++ [lbC]).isPrefixOf (A.drop i) = false := by
    intro i hi
    have hdropA : A.drop i
        = f.name.drop i
          ++ (' ' :: lbC :: '\n' :: (J ++ '\n' :: rbC :: ' ' :: (f.name ++ [';']))) := by
      rw [hA]
      exact List.drop_append_of_le_length (by omega)
    rw [hdropA, List.drop_eq_getElem_cons hi,
      show (str " " ++ [lbC] : Str) = ' ' :: [lbC] from by decide]
    show ((' ' == f.name[i]) && _) = false
    have hsp : (' ' == f.name[i]) = false := by
      rcases hb : ' ' == f.name[i] with _ | _
      · rfl
      · exfalso
        have hwsi : isWs f.name[i] = false := by
          have hall := List.any_eq_false.mp hws
          have := hall f.name[i] (List.getElem_mem hi)
          simpa using this
        rw [← beq_iff_eq.mp hb] at hwsi
        exact absurd hwsi (by decide)
    simp [hsp]
  have hpk : (str " " ++ [lbC]).isPrefixOf (A.drop f.name.length) = true := by
    have hdropA : A.drop f.name.length
        = ' ' :: lbC :: '\n' :: (J ++ '\n' :: rbC :: ' ' :: (f.name ++ [';'])) := by
      rw [hA]
      exact List.drop_left _ _
    rw [hdropA, show (str " " ++ [lbC] : Str) = ' ' :: [lbC] from by decide]
    simp [List.isPrefixOf]
  obtain ⟨qs, hocc⟩ := filter_range_first
    (fun i => (str " " ++ [lbC]).isPrefixOf (A.drop i)) (A.length + 1)
    f.name.length hlenA hbelow hpk
  unfold occurrences
  rw [hocc, fnbAux,
    if_pos (show 1 ≤ f.name.length from List.length_pos.mpr hne)]
  dsimp only
  have htake : A.take f.name.length = f.name := by
    rw [hA]
    exact List.take_left _ _
  have hdrop2 : A.drop (f.name.length + 2)
      = '\n' :: (J ++ '\n' :: rbC :: ' ' :: (f.name ++ [';'])) := by
    have hA2 : A = (f.name ++ [' ', lbC])
        ++ ('\n' :: (J ++ '\n' :: rbC :: ' ' :: (f.name ++ [';']))) := by
      rw [hA]
      simp [List.append_assoc]
    rw [hA2]
    exact List.drop_left' (by simp)
  rw [htake, hdrop2]
  have hrest : ('\n' :: (J ++ '\n' :: rbC :: ' ' :: (f.name ++ [';'])) : Str)
      = ('\n' :: (J ++ ['\n'])) ++ rbC :: (' ' :: (f.name ++ [';'])) := by
    simp [List.append_assoc]
  rw [hrest]
  have hpost : ((' ' :: (f.name ++ [';'])) : Str).contains rbC = false := by
    simp only [List.contains_cons, contains_append_eq, hrb]
    decide
  rw [lastIdx_append_no_tail rbC _ _ hpost]
  dsimp only
  rw [if_pos (show 1 ≤ (('\n' :: (J ++ ['\n'])) : Str).length from by simp),
    List.take_left]

/-! ### Re-splitting the written body into statement lines -/

/-- An empty line is dropped by the strip/filter post-processing. -/
theorem stripLines_nil_cons (X : List Str) : stripLines ([] :: X) = stripLines X := by
  unfold stripLines
  simp [strip]

/-- A kept line: tab indentation plus a trim-fixed nonempty core. -/
theorem stripLines_cons_keep (l : Str) (tl : Nat) (X : List Str)
    (h : lineTrim l = true) :
    stripLines ((tabs tl ++ l) :: X) = l :: stripLines X := by
  rcases lineTrim_spec l h with ⟨hne, hstrip, _⟩
  unfold stripLines
  rw [List.map_cons, strip_tabs_append tl l hstrip, List.filter_cons,
    if_pos (by simp [hne])]

/-- `stripLines` distributes over `flatMap`. -/
theorem stripLines_flatMap {α : Type} (l : List α) (g : α → List Str) :
    stripLines (l.flatMap g) = l.flatMap (fun x => stripLines (g x)) := by
  induction l with
  | nil => rfl
  | cons a t ih =>
    rw [List.flatMap_cons, stripLines_append, ih, List.flatMap_cons]

/-- `flatMap` after `map` is `flatMap` of the composition. -/
theorem flatMap_map_comp {α β γ : Type} (f : α → β) (g : β → List γ) (l : List α) :
    (l.map f).flatMap g = l.flatMap (fun a => g (f a)) := by
  induction l with
  | nil => rfl
  | cons a t ih => rw [List.map_cons, List.flatMap_cons, List.flatMap_cons, ih]

/-- Every well-formed child line is trim-fixed. -/
theorem litemOk_lineTrim (nm : Str) (it : LItem) (h : litemOk nm it = true) :
    lineTrim (litemLine it) = true := by
  rcases it with x | x | x
  · unfold litemOk at h
    simp only [Bool.and_eq_true, Bool.not_eq_true'] at h
    exact (lfLineOk_spec x h.1).1
  · unfold litemOk at h
    simp only [Bool.and_eq_true, Bool.not_eq_true'] at h
    exact (clsLineOk_spec x h.1).1
  · unfold litemOk at h
    simp only [Bool.and_eq_true, Bool.not_eq_true'] at h
    exact h.1

/-- The open line of a brace-free whitespace-free name is a trim-fixed
newline-free nonempty line. -/
theorem openLine_lineTrim (nm : Str) (h : lookupNameOk nm = true) :
    lineTrim (openLine nm) = true := by
  have hws : nm.any isWs = false := by
    unfold lookupNameOk at h
    simp only [Bool.and_eq_true, Bool.not_eq_true'] at h
    exact h.2
  have hnl : (openLine nm).contains '\n' = false := by
    unfold openLine
    rw [contains_append_eq, contains_append_eq,
      contains_false_of_no_ws nm hws '\n' (by decide)]
    decide
  have hstrip : strip (openLine nm) = openLine nm := by
    refine strip_eq_self _ ?_ ?_
    · intro c hc
      rw [openLine_head nm] at hc
      injection hc with hc
      rw [← hc]
      decide
    · intro c hc
      rw [(openLine_guard nm).2] at hc
      injection hc with hc
      rw [← hc]
      decide
  unfold lineTrim
  rw [isEmpty_false_of_head _ _ (openLine_head nm), hstrip, hnl]
  simp

/-- The close line of a brace-free whitespace-free name is a trim-fixed
newline-free nonempty line. -/
theorem closeLine_lineTrim (nm : Str) (h : lookupNameOk nm = true) :
    lineTrim (closeLine nm) = true := by
  have hws : nm.any isWs = false := by
    unfold lookupNameOk at h
    simp only [Bool.and_eq_true, Bool.not_eq_true'] at h
    exact h.2
  have hhead : (closeLine nm).head? = some rbC := rfl
  have hlast : (closeLine nm).getLast? = some ';' := by
    have hsh : closeLine nm = ([rbC, ' '] ++ nm) ++ [';'] := by
      unfold closeLine
      simp [List.append_assoc]
    rw [hsh]
    exact List.getLast?_concat _
  have hnl : (closeLine nm).contains '\n' = false := by
    unfold closeLine
    rw [contains_append_eq, contains_append_eq,
      contains_false_of_no_ws nm hws '\n' (by decide)]
    decide
  have hstrip : strip (closeLine nm) = closeLine nm := by
    refine strip_eq_self _ ?_ ?_
    · intro c hc
      rw [hhead] at hc
      injection hc with hc
      rw [← hc]
      decide
    · intro c hc
      rw [hlast] at hc
      injection hc with hc
      rw [← hc]
      decide
  unfold lineTrim
  rw [isEmpty_false_of_head _ _ hhead, hstrip, hnl]
  simp

/-- The indented child lines strip back to the children's core lines. -/
theorem stripLines_children (nm : Str) (seq : List LItem)
    (h : seq.all (litemOk nm) = true) :
    stripLines (seq.map (fun it => tabs 2 ++ litemLine it)) = seq.map litemLine := by
  induction seq with
  | nil => rfl
  | cons a t ih =>
    simp only [List.all_cons, Bool.and_eq_true] at h
    rw [List.map_cons, stripLines_cons_keep _ _ _ (litemOk_lineTrim nm a h.1),
      ih h.2, List.map_cons]

/-- One serialized statement splits and strips back to its statement lines. -/
theorem stripLines_fitem (it : FItem) (h : fitemOk it = true) :
    stripLines (splitOnChar '\n' (FItem.write it 1)) = fitemLines it := by
  rcases it with x | x | x | x
  · exact stripLines_single x.raw 1 (lfLineOk_spec x h).1
  · exact stripLines_single x.raw 1 (clsLineOk_spec x h).1
  · show stripLines (splitOnChar '\n' (Lookup.write x 1)) = lookupLines x
    obtain ⟨hnm, hseq⟩ := lookupOk_spec x h
    have hopen1 : tabs 1 ++ str "lookup " ++ x.name ++ [' ', lbC]
        = tabs 1 ++ openLine x.name := by
      unfold openLine
      simp [List.append_assoc]
    have hclose1 : tabs 1 ++ [rbC, ' '] ++ x.name ++ [';']
        = tabs 1 ++ closeLine x.name := by
      unfold closeLine
      simp [List.append_assoc]
    have hmap1 : x.code_sequence.map (fun it => LItem.write it (1 + 1))
        = x.code_sequence.map (fun it => tabs 2 ++ litemLine it) :=
      List.map_congr_left (fun it _ => litem_write_tabs it 2)
    have hL : Lookup.write x 1
        = joinSep '\n'
            ((tabs 1 ++ openLine x.name)
              :: (x.code_sequence.map (fun it => tabs 2 ++ litemLine it)
                  ++ [tabs 1 ++ closeLine x.name])) := by
      unfold Lookup.write
      rw [hopen1, hclose1, hmap1]
      rfl
    rw [hL, splitOnChar_joinSep '\n' _ (by simp) ?_]
    · rw [stripLines_cons_keep _ _ _ (openLine_lineTrim x.name hnm),
        stripLines_append, stripLines_children x.name _ hseq,
        stripLines_cons_keep _ _ _ (closeLine_lineTrim x.name hnm)]
      rfl
    · intro p hp
      rcases List.mem_cons.mp hp with hp1 | hp2
      · rw [hp1, contains_append_eq, tabs_no_nl]
        have : (openLine x.name).contains '\n' = false := by
          have hws : x.name.any isWs = false := by
            unfold lookupNameOk at hnm
            simp only [Bool.and_eq_true, Bool.not_eq_true'] at hnm
            exact hnm.2
          unfold openLine
          rw [contains_append_eq, contains_append_eq,
            contains_false_of_no_ws x.name hws '\n' (by decide)]
          decide
        rw [this]
        rfl
      rcases List.mem_append.mp hp2 with hp3 | hp4
      · rcases List.mem_map.mp hp3 with ⟨it2, hit2, hlit2⟩
        rw [← hlit2, contains_append_eq, tabs_no_nl,
          (lineTrim_spec _ (litemOk_lineTrim x.name it2
            (List.all_eq_true.mp hseq it2 hit2))).2.2]
        rfl
      · rw [List.mem_singleton.mp hp4, contains_append_eq, tabs_no_nl]
        have hws : x.name.any isWs = false := by
          unfold lookupNameOk at hnm
          simp only [Bool.and_eq_true, Bool.not_eq_true'] at hnm
          exact hnm.2
        have : (closeLine x.name).contains '\n' = false := by
          unfold closeLine
          rw [contains_append_eq, contains_append_eq,
            contains_false_of_no_ws x.name hws '\n' (by decide)]
          decide
        rw [this]
        rfl
  · show stripLines (splitOnChar '\n' (x.write 1)) = [x.write 0]
    rw [sub_write_tabs]
    exact stripLines_single _ 1 h

/-- Pointwise conversion of the re-split statement lines. -/
theorem flatMap_stripLines_fitem (its : List FItem) (h : its.all fitemOk = true) :
    its.flatMap (fun it => stripLines (splitOnChar '\n' (FItem.write it 1)))
      = its.flatMap fitemLines := by
  induction its with
  | nil => rfl
  | cons a t ih =>
    simp only [List.all_cons, Bool.and_eq_true] at h
    rw [List.flatMap_cons, List.flatMap_cons, stripLines_fitem a h.1, ih h.2]

/-- The written inner body re-splits to exactly the statements' lines. -/
theorem codeLines_writeBody (its : List FItem) (h : its.all fitemOk = true)
    (hne : its ≠ []) :
    codeLines ('\n' :: (joinSep '\n' (its.map (FItem.write · 1)) ++ ['\n']))
      = its.flatMap fitemLines := by
  show stripLines (splitOnChar '\n'
      ('\n' :: (joinSep '\n' (its.map (FItem.write · 1)) ++ ['\n']))) = _
  rw [splitOnChar_cons_eq, if_pos rfl,
    show (joinSep '\n' (its.map (FItem.write · 1)) ++ ['\n'] : Str)
      = joinSep '\n' (its.map (FItem.write · 1)) ++ '\n' :: [] from rfl,
    splitOnChar_append_cons, stripLines_nil_cons, stripLines_append,
    show stripLines (splitOnChar '\n' ([] : Str)) = [] from rfl, List.append_nil,
    splitOnChar_joinSep_flat '\n' _ (by simp [hne]), flatMap_map_comp,
    stripLines_flatMap]
  exact flatMap_stripLines_fitem its h

/-- Each statement serializes to at least one line. -/
theorem length_le_flatMap_fitemLines (its : List FItem) :
    its.length ≤ (its.flatMap fitemLines).length := by
  induction its with
  | nil => simp
  | cons a t ih =>
    rw [List.flatMap_cons, List.length_append, List.length_cons]
    have ha : 1 ≤ (fitemLines a).length := by
      rcases a with x | x | x | x
      · exact Nat.le_refl 1
      · exact Nat.le_refl 1
      · show 1 ≤ (lookupLines x).length
        rw [lookupLines_eq]
        simp
      · exact Nat.le_refl 1
    omega

/-! ### C2: round-trip stability -/

/-- The C2 collision text: two lookups whose names overlap (`X` is a prefix
of `Xa`), both referenced from one chaining rule. -/
def c2Text : Str :=
  str "feature t \x7b\nlookup a \x7b\nsub p" ++ [qc] ++ str " lookup X r" ++ [qc]
    ++ str " lookup Xa;\n\x7d a;\n\x7d t;"

/-- C2 (counterexample): the collision text parses, and writing the parsed
feature re-parses successfully but to a *different* AST — the placeholder
substitution of `parse_sequence` (`str.replace` replaces all occurrences)
garbles the overlapping `lookup X` / `lookup Xa` references into a literal
`\x7blookup_ref_0\x7da` token whose written line contains `\x7d` and matches
the enclosing block's close pattern on re-parse, truncating the block. The
parsed feature also fails the `featureWF` guard of the amended claim. -/
theorem C2_counterexample :
    Feature.ofText c2Text = Except.ok (getFeat (Feature.ofText c2Text))
    ∧ Feature.ofText ((getFeat (Feature.ofText c2Text)).write 0)
        = Except.ok (getFeat (Feature.ofText ((getFeat (Feature.ofText c2Text)).write 0)))
    ∧ getFeat (Feature.ofText ((getFeat (Feature.ofText c2Text)).write 0))
        ≠ getFeat (Feature.ofText c2Text)
    ∧ featureWF (getFeat (Feature.ofText c2Text)) = false := by
  refine ⟨by decide, by decide, by decide, by decide⟩

/-- C2 (amended): for every feature text `t` whose parse succeeds with a
well-formed AST (`featureWF`: a brace- and whitespace-free block name,
nonempty well-formed statement lines, and agreement of the stored AST with
its own serialization replay), writing and re-parsing returns the very same
AST: `parse (write (parse t)) = parse t`. -/
theorem C2_roundtrip (t : Str) (f : Feature)
    (hparse : Feature.ofText t = Except.ok f) (hwf : featureWF f = true) :
    Feature.ofText (f.write 0) = Except.ok f := by
  have hwf' := hwf
  unfold featureWF at hwf'
  simp only [Bool.and_eq_true] at hwf'
  obtain ⟨⟨⟨hnm, hne⟩, hall⟩, hrep⟩ := hwf'
  have hne2 : f.code_sequence ≠ [] := by
    intro hcontra
    rw [hcontra] at hne
    simp at hne
  have hfeq : f =
      { name := f.name
        code_sequence := (replayF f.code_sequence none none ⟨[], [], [], []⟩).seq
        scripts := (replayF f.code_sequence none none ⟨[], [], [], []⟩).scripts
        languages := (replayF f.code_sequence none none ⟨[], [], [], []⟩).languages
        all_glyphs := (replayF f.code_sequence none none ⟨[], [], [], []⟩).all_glyphs } :=
    eq_of_beq hrep
  unfold Feature.ofText
  rw [featureNameBody_write f hnm]
  show Feature.ofBody f.name
      ('\n' :: (joinSep '\n' (f.code_sequence.map (FItem.write · 1)) ++ ['\n']))
    = Except.ok f
  unfold Feature.ofBody
  rw [codeLines_writeBody f.code_sequence hall hne2,
    featLoopF_replayF f.code_sequence _ none none ⟨[], [], [], []⟩ hall
      (length_le_flatMap_fitemLines _)]
  exact congrArg Except.ok hfeq.symm

/-- A well-formed single-rule feature used for the C2 witness. -/
def c2wfText : Str := str "feature liga \x7b\nsub f i by f_i;\n\x7d liga;"

/-- C2 witness: the amended round-trip theorem applied to the parsed
single-rule feature, hypotheses discharged by evaluation. -/
theorem C2_roundtrip_witness :
    Feature.ofText ((getFeat (Feature.ofText c2wfText)).write 0)
      = Except.ok (getFeat (Feature.ofText c2wfText)) :=
  C2_roundtrip c2wfText (getFeat (Feature.ofText c2wfText)) (by decide) (by decide)

/-- A concrete rule `sub a by b;`, used by several concrete checks. -/
def subAB : Substitution := Substitution.mk' (str "sub a by b;") none none

/-- C1 (counterexample): with the filters `scripts=[]` (an empty list, not
`None`) and `glyphs=['a','b']`, the rule `sub a by b;` is *retained* although
`scripts` is set and its script (`None`) is not a member of `[]`; Python
truthiness makes an empty filter list behave as unset, contradicting the
claimed iff. -/
theorem C1_counterexample :
    Substitution.subset subAB (some []) none (some (.ofList [str "a", str "b"])) = some subAB
    ∧ (some ([] : List (Option Str)) ≠ none ∧ subAB.script ∉ ([] : List (Option Str))) := by
  refine ⟨by decide, by simp, by simp⟩

/-- C1 (amended): with at least one filter argument given, `subset` returns a
copy iff (scripts is unset **or empty** OR script ∈ scripts) AND (languages is
unset **or empty** OR language ∈ languages) AND (glyphs is unset **or falsy**
OR all_glyphs ⊆ glyph set); otherwise it returns nothing; and every rule
retained under a nonempty glyph list filter satisfies `all_glyphs ⊆ G`. -/
theorem C1_subset_iff (s : Substitution) (scripts languages : Option (List (Option Str)))
    (glyphs : Option GlyphsArg)
    (h : ¬ (scripts = none ∧ languages = none ∧ glyphs = none)) :
    (Substitution.subset s scripts languages glyphs = some s ↔
      ((∀ l, scripts = some l → l ≠ [] → s.script ∈ l)
        ∧ (∀ l, languages = some l → l ≠ [] → s.language ∈ l)
        ∧ (∀ g, glyphs = some g → g.truthy = true → ∀ x ∈ s.all_glyphs, x ∈ g.toGlyphList)))
    ∧ (Substitution.subset s scripts languages glyphs = some s
        ∨ Substitution.subset s scripts languages glyphs = none)
    ∧ (∀ G, glyphs = some (GlyphsArg.ofList G) → G ≠ [] →
        Substitution.subset s scripts languages glyphs = some s →
        ∀ x ∈ s.all_glyphs, x ∈ G) := by
  have hfilter : ∀ (o : Option (List (Option Str))) (v : Option Str),
      tagFilterBlocks o v = false ↔ (∀ l, o = some l → l ≠ [] → v ∈ l) := by
    intro o v
    rcases o with _ | l
    · simp [tagFilterBlocks]
    · unfold tagFilterBlocks
      constructor
      · intro hf l2 hl2 hne
        injection hl2 with hl2
        subst hl2
        rcases Bool.and_eq_false_iff.mp hf with hf | hf
        · exact absurd (List.isEmpty_iff.mp (by simpa using hf)) hne
        · simpa using hf
      · intro hk
        by_cases hne : l = []
        · subst hne
          simp
        · have hmem := hk l rfl hne
          simp [hmem]
  have hglyphs : glyphFilterBlocks glyphs s.all_glyphs = false ↔
      (∀ g, glyphs = some g → g.truthy = true → ∀ x ∈ s.all_glyphs, x ∈ g.toGlyphList) := by
    rcases glyphs with _ | g
    · simp [glyphFilterBlocks]
    · unfold glyphFilterBlocks
      constructor
      · intro hf g2 hg2 ht
        injection hg2 with hg2
        subst hg2
        rcases Bool.and_eq_false_iff.mp hf with hf | hf
        · exact absurd ht (by simp [hf])
        · intro x hx
          have hall : ∀ y ∈ s.all_glyphs, y ∈ g.toGlyphList := by simpa using hf
          exact hall x hx
      · intro hk
        by_cases ht : g.truthy = true
        · have := hk g rfl ht
          have hall : s.all_glyphs.all (· ∈ g.toGlyphList) = true :=
            List.all_eq_true.mpr (fun x hx => decide_eq_true (this x hx))
          simp [hall]
        · simp [Bool.eq_false_iff.mpr ht]
  have hiff : Substitution.subset s scripts languages glyphs = some s ↔
      (tagFilterBlocks scripts s.script = false
        ∧ tagFilterBlocks languages s.language = false
        ∧ glyphFilterBlocks glyphs s.all_glyphs = false) := by
    unfold Substitution.subset
    rw [if_neg h]
    rcases Bool.eq_false_or_eq_true (tagFilterBlocks scripts s.script) with h1 | h1 <;>
      rcases Bool.eq_false_or_eq_true (tagFilterBlocks languages s.language) with h2 | h2 <;>
      rcases Bool.eq_false_or_eq_true (glyphFilterBlocks glyphs s.all_glyphs) with h3 | h3 <;>
      simp [h1, h2, h3]
  refine ⟨hiff.trans (by rw [hfilter scripts s.script, hfilter languages s.language, hglyphs]),
    ?_, ?_⟩
  · unfold Substitution.subset
    rw [if_neg h]
    split_ifs <;> simp
  · intro G hG hne hres x hx
    subst hG
    have hk := (hiff.mp hres).2.2
    rw [hglyphs] at hk
    have hmem := hk (GlyphsArg.ofList G) rfl (by simp [GlyphsArg.truthy, hne])
    exact hmem x hx

/-- C1 witness: the amended iff evaluated at `sub a by b;` with the single
filter `glyphs=['a','b']`. -/
theorem C1_subset_iff_witness :
    Substitution.subset subAB none none (some (.ofList [str "a", str "b"])) = some subAB := by
  have h := C1_subset_iff subAB none none (some (.ofList [str "a", str "b"])) (by simp)
  refine h.1.mpr ⟨?_, ?_, ?_⟩
  · intro l hl
    exact absurd hl (by simp)
  · intro l hl
    exact absurd hl (by simp)
  · intro g hg ht
    injection hg with hg
    subst hg
    decide

/-- The concrete sequence text `[i j]' @CombiningTopAccents`. -/
def c8seq : Str := str "[i j]" ++ [qc] ++ str " @CombiningTopAccents"

/-- The concrete rule `sub [i j]' @CombiningTopAccents by [idotless jdotless];`. -/
def c8rule : Str :=
  str "sub [i j]" ++ [qc] ++ str " @CombiningTopAccents by [idotless jdotless];"

/-- C8: for every sequence text whose tokenisation is nonempty-per-token (the
modelled domain: Python raises on an empty token) in which at least one
element carries the trailing target marker, `parse_sequence` reports a seen
target (so the rule is marked contextual), each element's `is_target` agrees
with the trailing marker on the element, every non-target element gets
`is_context = True`, and each marked element gets `is_context = False`;
concretely, for `[i j]' @CombiningTopAccents` the inline class is the target
and the class reference is context, and the full rule parses as contextual. -/
theorem C8_contextual_marking (text : Str)
    (hdom : ∀ tok ∈ seqTokens text, tok ≠ [])
    (h : ∃ e ∈ (parseSequence text).1, e.is_target = true) :
    (parseSequence text).2 = true
    ∧ (∀ e ∈ (parseSequence text).1, e.is_target = (e.name.getLast? == some qc))
    ∧ (∀ e ∈ (parseSequence text).1, e.is_target = false → e.is_context = some true)
    ∧ (∀ e ∈ (parseSequence text).1, e.is_target = true → e.is_context = some false)
    ∧ (Substitution.mk' c8rule none none).is_contextual = true
    ∧ ((parseSequence c8seq).1.map (fun e => (e.type, e.is_target, e.is_context))
        = [(ElemType.inline_class, true, some false), (ElemType.cls, false, some true)]) := by
  have hseen : ((seqTokens text).map mkSequenceElement).any (·.is_target) = true := by
    rcases h with ⟨e, he, ht⟩
    simp only [parseSequence] at he
    by_cases hs : ((seqTokens text).map mkSequenceElement).any (·.is_target) = true
    · exact hs
    · rw [if_neg hs] at he
      exact absurd (List.any_eq_true.mpr ⟨e, he, ht⟩) hs
  have hres : (parseSequence text).1
      = ((seqTokens text).map mkSequenceElement).map
          (fun o => { o with is_context := some (!o.is_target) }) := by
    simp only [parseSequence]
    rw [if_pos hseen]
  refine ⟨?_, ?_, ?_, ?_, by decide, by decide⟩
  · simp only [parseSequence]
    exact hseen
  · intro e he
    rw [hres] at he
    rcases List.mem_map.mp he with ⟨o, ho, rfl⟩
    rcases List.mem_map.mp ho with ⟨tok, htok, rfl⟩
    unfold mkSequenceElement
    simp only
    rcases hq : (tok.getLast? == some qc) with _ | _
    · simp [beq_iff_eq] at hq ⊢
      exact hq
    · simp [beq_iff_eq] at hq ⊢
      exact hq
  · intro e he hnt
    rw [hres] at he
    rcases List.mem_map.mp he with ⟨o, ho, rfl⟩
    simp only at hnt ⊢
    simp [hnt]
  · intro e he ht
    rw [hres] at he
    rcases List.mem_map.mp he with ⟨o, ho, rfl⟩
    simp only at ht ⊢
    simp [ht]

/-- C8 witness: the theorem applied at the concrete sequence
`[i j]' @CombiningTopAccents`, with both hypotheses discharged there. -/
theorem C8_contextual_marking_witness :
    (parseSequence c8seq).2 = true := by
  have h := C8_contextual_marking c8seq (by decide)
    ⟨(parseSequence c8seq).1.head (by decide), by
      constructor
      · exact List.head_mem _
      · decide⟩
  exact h.1

/-- C9: a line beginning with `sub` on which the `sub … by` / ` by …;`
searches do not both succeed and the chaining pattern does not match yields
the default Substitution — empty sequences, empty `all_glyphs`, no failure —
and a `SequenceElement` over the malformed inline class `[]` has an empty
`glyph_names` list. -/
theorem C9_soft_parse_miss (code : Str) (script language : Option Str)
    (h0 : (str "sub").isPrefixOf code)
    (h1 : searchSubBy code = none ∨ searchByClause code = none)
    (h2 : chainingMatch code = false) :
    Substitution.mk' code script language = Substitution.base script language
    ∧ (Substitution.mk' code script language).all_glyphs = []
    ∧ (Substitution.mk' code script language).input_sequence = []
    ∧ (Substitution.mk' code script language).output_sequence = []
    ∧ (mkSequenceElement (str "[]")).glyph_names = [] := by
  have hbase : Substitution.mk' code script language = Substitution.base script language := by
    unfold Substitution.mk' Substitution.parse_code
    have hcond : searchSubBy code = none ∨ searchByClause code = none := h1
    rw [if_pos hcond, if_neg (by simp [h2])]
  refine ⟨hbase, ?_, ?_, ?_, by decide⟩ <;> rw [hbase] <;> rfl

/-- C9 witness: the concrete line `sub foo bar` (no `by` clause, no
chaining pattern, no terminating semicolon). -/
theorem C9_soft_parse_miss_witness :
    Substitution.mk' (str "sub foo bar") none none = Substitution.base none none := by
  exact (C9_soft_parse_miss (str "sub foo bar") none none (by decide) (by decide)
    (by decide)).1

/-- C10 (counterexample): for the empty string `g = ''`, `subset(glyphs='')`
keeps `sub a by b;` (empty string is falsy, so the glyph filter is skipped),
while `subset(glyphs=''.split(' '))` — i.e. `glyphs=['']` — drops it. -/
theorem C10_counterexample :
    Substitution.subset subAB none none (some (.ofStr [])) = some subAB
    ∧ Substitution.subset subAB none none (some (.ofList (splitOnChar ' ' ([] : Str)))) = none := by
  exact ⟨by decide, by decide⟩

/-- C10 (amended): for every **nonempty** space-separated string `g`,
`subset(glyphs=g)` equals `subset(glyphs=g.split(' '))`; the empty string is
excluded because Python truthiness then treats the filter as unset. -/
theorem C10_string_list_agree (s : Substitution) (g : Str) (hg : g ≠ []) :
    Substitution.subset s none none (some (.ofStr g))
      = Substitution.subset s none none (some (.ofList (splitOnChar ' ' g))) := by
  unfold Substitution.subset
  have h1 : (GlyphsArg.ofStr g).truthy = true := by
    simp [GlyphsArg.truthy, List.isEmpty_iff, hg]
  have h2 : (GlyphsArg.ofList (splitOnChar ' ' g)).truthy = true := by
    simp [GlyphsArg.truthy, List.isEmpty_iff, splitOnChar_ne_nil]
  simp only [glyphFilterBlocks, tagFilterBlocks, GlyphsArg.toGlyphList, h1, h2]
  simp

/-- C10 witness: the agreement evaluated at `sub a by b;` with `g = "a b"`. -/
theorem C10_string_list_agree_witness :
    Substitution.subset subAB none none (some (.ofStr (str "a b")))
      = Substitution.subset subAB none none (some (.ofList (splitOnChar ' ' (str "a b")))) := by
  exact C10_string_list_agree subAB (str "a b") (by decide)

end OTF
